import Mathlib

/-!
Verification development for the lectura course-material ingestion and
retrieval-augmented question-answering service.

Each subsystem is embedded shallowly: the Python functions become Lean
functions over explicit data, external collaborators (vector store, web
search, LangChain text splitters, the clock) become oracle parameters, and
the claimed properties are proved or refuted against those definitions.

Python-semantics conventions used throughout:
* machine strings are `String` when only carried around, `List Char` when
  inspected character by character;
* `str.find` including its `-1` failure value is `PyStr.pyFind`;
* Python's stable `list.sort(key=...)` is `PyStr.stableSortByKey` (any two
  stable sorts by the same key agree extensionally);
* a Python value that may be `None` or an absent dictionary key is an
  `Option`;
* `time.time()` is an explicit clock argument.
-/

namespace PyStr

/-- Whitespace test matching the characters Python's `str.split()` and
`str.strip()` treat as whitespace on ASCII input (the service processes
markdown rendered from PDFs; exotic Unicode whitespace is not modelled). -/
def isPySpace (c : Char) : Bool :=
  c = ' ' || c = '\t' || c = '\n' || c = '\r' || c = '\x0b' || c = '\x0c'

/-- Python `str.strip()` on a character list. -/
def pyStrip (t : List Char) : List Char :=
  ((t.dropWhile isPySpace).reverse.dropWhile isPySpace).reverse

/-- One step of the word-count scan: the state is (inside-a-word, count). -/
def countWordsStep (st : Bool × Nat) (c : Char) : Bool × Nat :=
  if isPySpace c then (false, st.2)
  else (true, if st.1 then st.2 else st.2 + 1)

/-- Number of whitespace-separated words, Python `len(text.split())`. -/
def countWords (t : List Char) : Nat :=
  (t.foldl countWordsStep ((false : Bool), (0 : Nat))).2

/-- Python `s.find(sub, start)`: the smallest index `i ≥ start` (a negative
`start` is clamped to `max 0 (len s + start)` first) at which `sub` occurs
inside `s` with room for all of `sub`; `-1` when there is none. -/
def pyFind (s sub : List Char) (start : Int) : Int :=
  let st : Nat := if start < 0 then ((s.length : Int) + start).toNat else start.toNat
  match (List.range (s.length + 1 - st)).find? (fun k => sub.isPrefixOf (s.drop (st + k))) with
  | some k => ((st + k : Nat) : Int)
  | none => -1

/-- Stable insertion of `x` into `l`: `x` goes before the first element with a
strictly greater key, hence after earlier elements of equal key. -/
def stInsert {α : Type} (key : α → Int) (x : α) : List α → List α
  | [] => [x]
  | y :: ys => if key y < key x then y :: stInsert key x ys else x :: y :: ys

/-- Stable sort by an integer key; extensionally equal to Python's stable
`list.sort(key=...)` since both are stable sorts by the same key. -/
def stableSortByKey {α : Type} (key : α → Int) (l : List α) : List α :=
  l.foldr (stInsert key) []

theorem stInsert_perm {α : Type} (key : α → Int) (x : α) (l : List α) :
    List.Perm (stInsert key x l) (x :: l) := by
  induction l with
  | nil => simp [stInsert]
  | cons y ys ih =>
    by_cases h : key y < key x
    · simpa [stInsert, h] using ((ih.cons y).trans (List.Perm.swap x y ys))
    · simp [stInsert, h]

theorem stableSortByKey_perm {α : Type} (key : α → Int) (l : List α) :
    List.Perm (stableSortByKey key l) l := by
  induction l with
  | nil => simp [stableSortByKey]
  | cons x xs ih => exact (stInsert_perm key x _).trans (ih.cons x)

theorem mem_stInsert {α : Type} (key : α → Int) (x a : α) (l : List α) :
    a ∈ stInsert key x l ↔ a = x ∨ a ∈ l := by
  induction l with
  | nil => simp [stInsert]
  | cons y ys ih =>
    by_cases h : key y < key x
    · rw [stInsert, if_pos h]
      simp only [List.mem_cons, ih]
      tauto
    · rw [stInsert, if_neg h]
      simp only [List.mem_cons]

theorem stInsert_pairwise {α : Type} (key : α → Int) (x : α) (l : List α)
    (hl : l.Pairwise (fun a b => key a ≤ key b)) :
    (stInsert key x l).Pairwise (fun a b => key a ≤ key b) := by
  induction l with
  | nil => simp [stInsert]
  | cons y ys ih =>
    rcases List.pairwise_cons.mp hl with ⟨hy, hys⟩
    by_cases h : key y < key x
    · rw [stInsert, if_pos h]
      have hrec : (stInsert key x ys).Pairwise (fun a b => key a ≤ key b) := ih hys
      refine List.pairwise_cons.mpr ⟨?_, hrec⟩
      intro a ha
      rcases (mem_stInsert key x a ys).mp ha with rfl | ha
      · exact le_of_lt h
      · exact hy a ha
    · rw [stInsert, if_neg h]
      refine List.pairwise_cons.mpr ⟨?_, hl⟩
      intro a ha
      rcases List.mem_cons.mp ha with rfl | ha
      · exact le_of_not_lt h
      · exact le_trans (le_of_not_lt h) (hy a ha)

theorem stableSortByKey_pairwise {α : Type} (key : α → Int) (l : List α) :
    (stableSortByKey key l).Pairwise (fun a b => key a ≤ key b) := by
  induction l with
  | nil => simp [stableSortByKey]
  | cons x xs ih => exact stInsert_pairwise key x _ ih

theorem stInsert_map {α β : Type} (key : α → Int) (key2 : β → Int) (f : α → β)
    (hf : ∀ a, key2 (f a) = key a) (x : α) (l : List α) :
    (stInsert key x l).map f = stInsert key2 (f x) (l.map f) := by
  induction l with
  | nil => simp [stInsert]
  | cons y ys ih =>
    by_cases h : key y < key x
    · simp [stInsert, h, hf, ih]
    · simp [stInsert, h, hf]

theorem stableSortByKey_map {α β : Type} (key : α → Int) (key2 : β → Int) (f : α → β)
    (hf : ∀ a, key2 (f a) = key a) (l : List α) :
    (stableSortByKey key l).map f = stableSortByKey key2 (l.map f) := by
  induction l with
  | nil => simp [stableSortByKey]
  | cons x xs ih =>
    show (stInsert key x (stableSortByKey key xs)).map f = _
    rw [stInsert_map key key2 f hf, ih]
    rfl

end PyStr

/-!
## Management pipeline (deletion)

Embedding of `app/pipeline/manager/management_pipeline.py`.  The chunks
collection is modelled as the list of its documents; only the three metadata
fields the filters mention are distinguished, the rest of each document is an
opaque payload.
-/

namespace Management

/-- Document of the chunks collection: the three filterable metadata fields
plus an opaque remainder standing for all other persisted fields. -/
structure SDoc where
  course_id : String
  slide_id : String
  s3_file_name : String
  payload : String
  deriving DecidableEq, Repr

/-- Metadata filter document as built by `count_documents_sync` and
`delete_documents_sync`: each field is present only when the corresponding
argument is truthy (a non-empty string). -/
structure DeleteFilter where
  course : Option String
  slide : Option String
  s3file : Option String
  deriving DecidableEq, Repr

/-- Filter construction of `delete_documents_sync` (and, identically, of
`count_documents_sync`): `if course_id: filter_query["course_id"] = course_id`
etc., so an empty-string argument is omitted from the filter. -/
def buildFilter (course_id slide_id s3_file_name : String) : DeleteFilter :=
  { course := if course_id ≠ "" then some course_id else none
    slide := if slide_id ≠ "" then some slide_id else none
    s3file := if s3_file_name ≠ "" then some s3_file_name else none }

/-- MongoDB equality-filter semantics: a document matches when every field
present in the filter equals the document's field. -/
def filterMatches (f : DeleteFilter) (d : SDoc) : Bool :=
  (match f.course with | some c => d.course_id = c | none => true) &&
  (match f.slide with | some s => d.slide_id = s | none => true) &&
  (match f.s3file with | some s => d.s3_file_name = s | none => true)

/-- `count_documents_sync`: `collection.count_documents(filter_query)`. -/
def count_documents_sync (store : List SDoc) (course_id slide_id s3_file_name : String) : Nat :=
  (store.filter (filterMatches (buildFilter course_id slide_id s3_file_name))).length

/-- Result dictionary of `delete_documents_sync`. -/
structure DeleteManyResult where
  deleted_count : Nat
  acknowledged : Bool
  deriving DecidableEq, Repr

/-- `delete_documents_sync`: one `delete_many` with the metadata filter.  The
result is the acknowledged deletion together with the store afterwards. -/
def delete_documents_sync (store : List SDoc) (course_id slide_id s3_file_name : String) :
    DeleteManyResult × List SDoc :=
  let f := buildFilter course_id slide_id s3_file_name
  ({ deleted_count := (store.filter (filterMatches f)).length, acknowledged := true },
   store.filter (fun d => ! filterMatches f d))

/-- Outcome fields of `delete_vectors_by_metadata` that the specification
talks about (`success`, `vectors_deleted`). -/
structure DeleteOutcome where
  success : Bool
  vectors_deleted : Nat
  deriving DecidableEq, Repr

/-- `delete_vectors_by_metadata`: count first; on a zero count return success
with `vectors_deleted = 0` without issuing the delete, otherwise issue the
bulk delete and report its `deleted_count`. -/
def delete_vectors_by_metadata (store : List SDoc) (course_id slide_id s3_file_name : String) :
    DeleteOutcome × List SDoc :=
  let documents_to_delete := count_documents_sync store course_id slide_id s3_file_name
  if documents_to_delete = 0 then
    ({ success := true, vectors_deleted := 0 }, store)
  else
    let res := delete_documents_sync store course_id slide_id s3_file_name
    ({ success := true, vectors_deleted := res.1.deleted_count }, res.2)

end Management

/-- C9 (counterexample): the claim fails as stated.  For empty-string arguments the
filter built by `delete_documents_sync` omits all three fields (Python truthiness), so
the issued bulk delete matches — and deletes — a document none of whose three metadata
fields equals the corresponding argument. -/
theorem c9_delete_filter_counterexample :
    Management.delete_vectors_by_metadata
        [{ course_id := "C1", slide_id := "S1", s3_file_name := "a.pdf", payload := "p" }]
        "" "" "" =
      ({ success := true, vectors_deleted := 1 }, []) ∧
    ("C1" : String) ≠ "" := by
  constructor
  · rfl
  · decide

/-- C9 (amended): `delete_vectors_by_metadata` always reports success, deletes exactly
the documents matching the built metadata filter (in particular it reports
`vectors_deleted = 0` as success when nothing matches), and the filter exact-matches
each of `course_id`, `slide_id`, `s3_file_name` that is a non-empty string, while an
empty-string argument is omitted from the filter. -/
theorem c9_delete_filter_amended (store : List Management.SDoc) (a b c : String) :
    Management.delete_vectors_by_metadata store a b c =
      ({ success := true,
         vectors_deleted :=
           (store.filter (Management.filterMatches (Management.buildFilter a b c))).length },
       store.filter (fun d => ! Management.filterMatches (Management.buildFilter a b c) d)) ∧
    (∀ d : Management.SDoc,
      Management.filterMatches (Management.buildFilter a b c) d = true ↔
        ((a ≠ "" → d.course_id = a) ∧ (b ≠ "" → d.slide_id = b) ∧
         (c ≠ "" → d.s3_file_name = c))) := by
  constructor
  · show Management.delete_vectors_by_metadata store a b c = _
    rw [Management.delete_vectors_by_metadata]
    by_cases h : Management.count_documents_sync store a b c = 0
    · rw [if_pos h]
      rw [Management.count_documents_sync] at h
      have hnil : store.filter (Management.filterMatches (Management.buildFilter a b c)) = [] :=
        List.eq_nil_of_length_eq_zero h
      have hall : ∀ d ∈ store, ¬ (Management.filterMatches (Management.buildFilter a b c) d = true) := by
        intro d hd hmatch
        have : d ∈ store.filter (Management.filterMatches (Management.buildFilter a b c)) :=
          List.mem_filter.mpr ⟨hd, hmatch⟩
        rw [hnil] at this
        exact absurd this (List.not_mem_nil d)
      have hself : store.filter (fun d => ! Management.filterMatches (Management.buildFilter a b c) d) = store := by
        apply List.filter_eq_self.mpr
        intro d hd
        simpa using hall d hd
      rw [hself, hnil]
      rfl
    · rw [if_neg h]
      rfl
  · intro d
    rw [Management.buildFilter, Management.filterMatches]
    by_cases ha : a = "" <;> by_cases hb : b = "" <;> by_cases hc : c = "" <;>
      simp [ha, hb, hc, and_assoc]

/-!
## Outbound agent: custom tool node and source-ID renumbering

Embedding of `OutboundAgent._create_custom_tool_node`
(`app/pipeline/outbound/agent.py`).  The tool executions themselves
(`base_tool_node.ainvoke`) are external: one tools-node step receives the
list of tool messages that invocation produced.  A run is the sequence of
tools-node steps of one outbound request; the graph state carries
`rag_counter` and `web_counter`, initialised to 0 in `process_query` and
updated only by the tools node (the agent node returns only `messages`, and
the state channels have no reducer, so the node's returned counters are the
next step's counters).
-/

namespace Agent

/-- One source object inside a tool result: the `id` the node renumbers plus
an opaque remainder for the other JSON fields, which renumbering leaves
untouched. -/
structure Source where
  id : String
  payload : String
  deriving DecidableEq, Repr

/-- Parsed JSON content of a tool message, as the tools produce it:
`success`, a `results` array, and an opaque remainder (`error`, `count`). -/
structure ToolContent where
  success : Bool
  results : List Source
  extraFields : String
  deriving DecidableEq, Repr

/-- Content of a tool message as the node sees it: either a string that
`json.loads` parses (the node re-serialises it after renumbering), or
anything else — empty, non-string, or unparsable — which the node leaves
untouched (the exception is caught and logged). -/
inductive MsgContent where
  | parsed (tc : ToolContent)
  | opaqueC (s : String)
  deriving DecidableEq, Repr

/-- A `ToolMessage` produced by the base tool node: its tool name and its
content. -/
structure ToolMsg where
  name : String
  content : MsgContent
  deriving DecidableEq, Repr

/-- Renumbering loop: `for source in results: counter += 1; source["id"] =
str(counter)`.  Returns the renumbered sources and the final counter. -/
def renumberFrom (c : Nat) : List Source → List Source × Nat
  | [] => ([], c)
  | r :: rs =>
    let c1 := c + 1
    let rest := renumberFrom c1 rs
    ({ r with id := toString c1 } :: rest.1, rest.2)

/-- Processing of one tool message by the custom tool node: successful
`rag_search_tool` results are renumbered from `rag_counter + 1`, successful
`web_search_tool` results from `web_counter + 1`; every other message is
re-serialised (or left) unchanged and the counters are not moved. -/
def processToolMsg (rc wc : Nat) (m : ToolMsg) : ToolMsg × Nat × Nat :=
  match m.content with
  | .opaqueC _ => (m, rc, wc)
  | .parsed tc =>
    if m.name = "rag_search_tool" ∧ tc.success then
      let r := renumberFrom rc tc.results
      ({ m with content := .parsed { tc with results := r.1 } }, r.2, wc)
    else if m.name = "web_search_tool" ∧ tc.success then
      let r := renumberFrom wc tc.results
      ({ m with content := .parsed { tc with results := r.1 } }, rc, r.2)
    else (m, rc, wc)

/-- One tools-node step (`custom_tool_node`): process the produced tool
messages in order, threading the counters, and return the updated messages
together with the updated counters. -/
def customToolNode (rc wc : Nat) : List ToolMsg → List ToolMsg × Nat × Nat
  | [] => ([], rc, wc)
  | m :: ms =>
    let p := processToolMsg rc wc m
    let rest := customToolNode p.2.1 p.2.2 ms
    (p.1 :: rest.1, rest.2)

/-- A whole run: the successive tools-node steps of one request, starting
from the state's counters.  Returns every step's processed messages and the
final counters. -/
def runToolNodes (rc wc : Nat) : List (List ToolMsg) → List (List ToolMsg) × Nat × Nat
  | [] => ([], rc, wc)
  | s :: ss =>
    let p := customToolNode rc wc s
    let rest := runToolNodes p.2.1 p.2.2 ss
    (p.1 :: rest.1, rest.2)

/-- IDs attached to the results of the successful `rag_search_tool` messages
of a step, in order. -/
def ragIds (msgs : List ToolMsg) : List String :=
  msgs.flatMap fun m =>
    match m.content with
    | .parsed tc =>
      if m.name = "rag_search_tool" ∧ tc.success then tc.results.map (·.id) else []
    | .opaqueC _ => []

/-- IDs attached to the results of the successful `web_search_tool` messages
of a step, in order. -/
def webIds (msgs : List ToolMsg) : List String :=
  msgs.flatMap fun m =>
    match m.content with
    | .parsed tc =>
      if m.name = "web_search_tool" ∧ tc.success then tc.results.map (·.id) else []
    | .opaqueC _ => []

/-- The ID sequence `toString (c+1), …, toString (c+n)`. -/
def idsFrom (c n : Nat) : List String :=
  (List.range n).map (fun i => toString (c + i + 1))

theorem idsFrom_zero (n : Nat) :
    idsFrom 0 n = (List.range n).map (fun k => toString (k + 1)) := by
  unfold idsFrom
  simp

theorem idsFrom_length (c n : Nat) : (idsFrom c n).length = n := by
  simp [idsFrom]

theorem idsFrom_append (c n m : Nat) :
    idsFrom c n ++ idsFrom (c + n) m = idsFrom c (n + m) := by
  unfold idsFrom
  rw [List.range_add, List.map_append, List.map_map]
  congr 1
  apply List.map_congr_left
  intro a _
  simp
  ring_nf

theorem renumberFrom_spec (c : Nat) (rs : List Source) :
    ((renumberFrom c rs).1.map (·.id)) = idsFrom c rs.length ∧
    (renumberFrom c rs).2 = c + rs.length := by
  induction rs generalizing c with
  | nil => simp [renumberFrom, idsFrom]
  | cons r rs ih =>
    rcases ih (c + 1) with ⟨h1, h2⟩
    constructor
    · show toString (c + 1) :: ((renumberFrom (c + 1) rs).1.map (·.id)) = idsFrom c (rs.length + 1)
      rw [h1]
      unfold idsFrom
      rw [List.range_succ_eq_map]
      simp only [List.map_cons, List.map_map]
      congr 1
      apply List.map_congr_left
      intro a _
      simp
      ring_nf
    · show (renumberFrom (c + 1) rs).2 = c + (rs.length + 1)
      rw [h2]
      omega

end Agent

namespace Agent

/-- Number of sources inside the successful `rag_search_tool` messages of a
step (renumbering changes neither names, nor success flags, nor lengths). -/
def ragCount : List ToolMsg → Nat
  | [] => 0
  | m :: ms =>
    (match m.content with
     | .parsed tc => if m.name = "rag_search_tool" ∧ tc.success then tc.results.length else 0
     | .opaqueC _ => 0) + ragCount ms

/-- Number of sources inside the successful `web_search_tool` messages of a
step. -/
def webCount : List ToolMsg → Nat
  | [] => 0
  | m :: ms =>
    (match m.content with
     | .parsed tc => if m.name = "web_search_tool" ∧ tc.success then tc.results.length else 0
     | .opaqueC _ => 0) + webCount ms


theorem customToolNode_cons (rc wc : Nat) (m : ToolMsg) (ms : List ToolMsg) :
    customToolNode rc wc (m :: ms) =
      ((processToolMsg rc wc m).1 ::
         (customToolNode (processToolMsg rc wc m).2.1 (processToolMsg rc wc m).2.2 ms).1,
       (customToolNode (processToolMsg rc wc m).2.1 (processToolMsg rc wc m).2.2 ms).2) := rfl

theorem ragIds_cons_pos (tc : ToolContent) (l : List ToolMsg) (h : tc.success = true) :
    ragIds (⟨"rag_search_tool", .parsed tc⟩ :: l) = tc.results.map (·.id) ++ ragIds l := by
  simp [ragIds, h]

theorem ragIds_cons_neg (m : ToolMsg) (l : List ToolMsg)
    (h : ∀ tc, m.content = .parsed tc → ¬ (m.name = "rag_search_tool" ∧ tc.success = true)) :
    ragIds (m :: l) = ragIds l := by
  rcases m with ⟨mname, mcontent⟩
  rcases mcontent with tc | s
  · have hneg := h tc rfl
    simp only [ragIds, List.flatMap_cons]
    rw [if_neg hneg, List.nil_append]
  · simp [ragIds]

theorem webIds_cons_pos (tc : ToolContent) (l : List ToolMsg) (h : tc.success = true) :
    webIds (⟨"web_search_tool", .parsed tc⟩ :: l) = tc.results.map (·.id) ++ webIds l := by
  simp [webIds, h]

theorem webIds_cons_neg (m : ToolMsg) (l : List ToolMsg)
    (h : ∀ tc, m.content = .parsed tc → ¬ (m.name = "web_search_tool" ∧ tc.success = true)) :
    webIds (m :: l) = webIds l := by
  rcases m with ⟨mname, mcontent⟩
  rcases mcontent with tc | s
  · have hneg := h tc rfl
    simp only [webIds, List.flatMap_cons]
    rw [if_neg hneg, List.nil_append]
  · simp [webIds]

theorem customToolNode_cons_fst (rc wc : Nat) (m : ToolMsg) (ms : List ToolMsg) :
    (customToolNode rc wc (m :: ms)).1 =
      (processToolMsg rc wc m).1 ::
        (customToolNode (processToolMsg rc wc m).2.1 (processToolMsg rc wc m).2.2 ms).1 := rfl

theorem customToolNode_cons_cnt (rc wc : Nat) (m : ToolMsg) (ms : List ToolMsg) :
    (customToolNode rc wc (m :: ms)).2 =
      (customToolNode (processToolMsg rc wc m).2.1 (processToolMsg rc wc m).2.2 ms).2 := rfl

theorem customToolNode_spec (ms : List ToolMsg) : ∀ rc wc : Nat,
    (customToolNode rc wc ms).2.1 = rc + ragCount ms ∧
    (customToolNode rc wc ms).2.2 = wc + webCount ms ∧
    ragIds (customToolNode rc wc ms).1 = idsFrom rc (ragCount ms) ∧
    webIds (customToolNode rc wc ms).1 = idsFrom wc (webCount ms) := by
  induction ms with
  | nil =>
    intro rc wc
    simp [customToolNode, ragIds, webIds, ragCount, webCount, idsFrom]
  | cons m ms ih =>
    intro rc wc
    rcases m with ⟨mname, mcontent⟩
    rcases mcontent with tc | s
    · by_cases hr : mname = "rag_search_tool" ∧ tc.success
      · obtain ⟨hname, hsucc⟩ := hr
        subst hname
        have hp1 : (processToolMsg rc wc ⟨"rag_search_tool", .parsed tc⟩).1 =
            ⟨"rag_search_tool", .parsed { tc with results := (renumberFrom rc tc.results).1 }⟩ := by
          simp [processToolMsg, hsucc]
        have hp2 : (processToolMsg rc wc ⟨"rag_search_tool", .parsed tc⟩).2.1 =
            (renumberFrom rc tc.results).2 := by
          simp [processToolMsg, hsucc]
        have hp3 : (processToolMsg rc wc ⟨"rag_search_tool", .parsed tc⟩).2.2 = wc := by
          simp [processToolMsg, hsucc]
        rcases renumberFrom_spec rc tc.results with ⟨hids, hcnt⟩
        rcases ih (rc + tc.results.length) wc with ⟨ih1, ih2, ih3, ih4⟩
        have hragEq : ragCount (⟨"rag_search_tool", .parsed tc⟩ :: ms) =
            tc.results.length + ragCount ms := by
          simp [ragCount, hsucc]
        have hwebEq : webCount (⟨"rag_search_tool", .parsed tc⟩ :: ms) = webCount ms := by
          simp [webCount]
        have hneW : ∀ tc2 : ToolContent,
            (⟨"rag_search_tool",
               .parsed { tc with results := (renumberFrom rc tc.results).1 }⟩ : ToolMsg).content =
              .parsed tc2 →
            ¬ ((⟨"rag_search_tool",
                 .parsed { tc with results := (renumberFrom rc tc.results).1 }⟩ : ToolMsg).name =
                  "web_search_tool" ∧ tc2.success = true) := by
          intro tc2 _ hcond
          have hstr : ("rag_search_tool" : String) = "web_search_tool" := hcond.1
          exact absurd hstr (by decide)
        refine ⟨?_, ?_, ?_, ?_⟩
        · show (customToolNode rc wc _).2.1 = _
          rw [customToolNode_cons_cnt, hp2, hp3, hcnt, ih1, hragEq]
          omega
        · show (customToolNode rc wc _).2.2 = _
          rw [customToolNode_cons_cnt, hp2, hp3, hcnt, ih2, hwebEq]
        · rw [customToolNode_cons_fst, hp1, hp2, hp3,
            ragIds_cons_pos { tc with results := (renumberFrom rc tc.results).1 } _ hsucc,
            hragEq, hcnt, ih3, ← idsFrom_append]
          congr 1
        · rw [customToolNode_cons_fst, hp1, hp2, hp3, webIds_cons_neg _ _ hneW,
            hwebEq, hcnt, ih4]
      · by_cases hw : mname = "web_search_tool" ∧ tc.success
        · obtain ⟨hname, hsucc⟩ := hw
          subst hname
          have hp1 : (processToolMsg rc wc ⟨"web_search_tool", .parsed tc⟩).1 =
              ⟨"web_search_tool", .parsed { tc with results := (renumberFrom wc tc.results).1 }⟩ := by
            simp [processToolMsg, hsucc]
          have hp2 : (processToolMsg rc wc ⟨"web_search_tool", .parsed tc⟩).2.1 = rc := by
            simp [processToolMsg, hsucc]
          have hp3 : (processToolMsg rc wc ⟨"web_search_tool", .parsed tc⟩).2.2 =
              (renumberFrom wc tc.results).2 := by
            simp [processToolMsg, hsucc]
          rcases renumberFrom_spec wc tc.results with ⟨hids, hcnt⟩
          rcases ih rc (wc + tc.results.length) with ⟨ih1, ih2, ih3, ih4⟩
          have hragEq : ragCount (⟨"web_search_tool", .parsed tc⟩ :: ms) = ragCount ms := by
            simp [ragCount]
          have hwebEq : webCount (⟨"web_search_tool", .parsed tc⟩ :: ms) =
              tc.results.length + webCount ms := by
            simp [webCount, hsucc]
          have hneR : ∀ tc2 : ToolContent,
              (⟨"web_search_tool",
                 .parsed { tc with results := (renumberFrom wc tc.results).1 }⟩ : ToolMsg).content =
                .parsed tc2 →
              ¬ ((⟨"web_search_tool",
                   .parsed { tc with results := (renumberFrom wc tc.results).1 }⟩ : ToolMsg).name =
                    "rag_search_tool" ∧ tc2.success = true) := by
            intro tc2 _ hcond
            have hstr : ("web_search_tool" : String) = "rag_search_tool" := hcond.1
            exact absurd hstr (by decide)
          refine ⟨?_, ?_, ?_, ?_⟩
          · show (customToolNode rc wc _).2.1 = _
            rw [customToolNode_cons_cnt, hp2, hp3, hcnt, ih1, hragEq]
          · show (customToolNode rc wc _).2.2 = _
            rw [customToolNode_cons_cnt, hp2, hp3, hcnt, ih2, hwebEq]
            omega
          · rw [customToolNode_cons_fst, hp1, hp2, hp3, ragIds_cons_neg _ _ hneR,
              hragEq, hcnt, ih3]
          · rw [customToolNode_cons_fst, hp1, hp2, hp3,
              webIds_cons_pos { tc with results := (renumberFrom wc tc.results).1 } _ hsucc,
              hwebEq, hcnt, ih4, ← idsFrom_append]
            congr 1
        · have hp1 : (processToolMsg rc wc ⟨mname, .parsed tc⟩).1 = ⟨mname, .parsed tc⟩ := by
            simp [processToolMsg, hr, hw]
          have hp2 : (processToolMsg rc wc ⟨mname, .parsed tc⟩).2.1 = rc := by
            simp [processToolMsg, hr, hw]
          have hp3 : (processToolMsg rc wc ⟨mname, .parsed tc⟩).2.2 = wc := by
            simp [processToolMsg, hr, hw]
          rcases ih rc wc with ⟨ih1, ih2, ih3, ih4⟩
          have hragEq : ragCount (⟨mname, .parsed tc⟩ :: ms) = ragCount ms := by
            simp [ragCount, hr]
          have hwebEq : webCount (⟨mname, .parsed tc⟩ :: ms) = webCount ms := by
            simp [webCount, hw]
          have hneR2 : ∀ tc2 : ToolContent,
              (⟨mname, .parsed tc⟩ : ToolMsg).content = .parsed tc2 →
              ¬ ((⟨mname, .parsed tc⟩ : ToolMsg).name = "rag_search_tool" ∧
                 tc2.success = true) := by
            intro tc2 heq hcond
            cases heq
            exact hr hcond
          have hneW2 : ∀ tc2 : ToolContent,
              (⟨mname, .parsed tc⟩ : ToolMsg).content = .parsed tc2 →
              ¬ ((⟨mname, .parsed tc⟩ : ToolMsg).name = "web_search_tool" ∧
                 tc2.success = true) := by
            intro tc2 heq hcond
            cases heq
            exact hw hcond
          refine ⟨?_, ?_, ?_, ?_⟩
          · show (customToolNode rc wc _).2.1 = _
            rw [customToolNode_cons_cnt, hp2, hp3, ih1, hragEq]
          · show (customToolNode rc wc _).2.2 = _
            rw [customToolNode_cons_cnt, hp2, hp3, ih2, hwebEq]
          · rw [customToolNode_cons_fst, hp1, hp2, hp3, ragIds_cons_neg _ _ hneR2,
              hragEq, ih3]
          · rw [customToolNode_cons_fst, hp1, hp2, hp3, webIds_cons_neg _ _ hneW2,
              hwebEq, ih4]
    · have hp1 : (processToolMsg rc wc ⟨mname, .opaqueC s⟩).1 = ⟨mname, .opaqueC s⟩ := rfl
      have hp2 : (processToolMsg rc wc ⟨mname, .opaqueC s⟩).2.1 = rc := rfl
      have hp3 : (processToolMsg rc wc ⟨mname, .opaqueC s⟩).2.2 = wc := rfl
      rcases ih rc wc with ⟨ih1, ih2, ih3, ih4⟩
      have hragEq : ragCount (⟨mname, .opaqueC s⟩ :: ms) = ragCount ms := by
        simp [ragCount]
      have hwebEq : webCount (⟨mname, .opaqueC s⟩ :: ms) = webCount ms := by
        simp [webCount]
      have hneO : ∀ tc2 : ToolContent,
          (⟨mname, .opaqueC s⟩ : ToolMsg).content = .parsed tc2 → False := by
        intro tc2 heq
        cases heq
      refine ⟨?_, ?_, ?_, ?_⟩
      · show (customToolNode rc wc _).2.1 = _
        rw [customToolNode_cons_cnt, hp2, hp3, ih1, hragEq]
      · show (customToolNode rc wc _).2.2 = _
        rw [customToolNode_cons_cnt, hp2, hp3, ih2, hwebEq]
      · rw [customToolNode_cons_fst, hp1, hp2, hp3,
          ragIds_cons_neg _ _ (fun tc2 heq => absurd heq (fun h => hneO tc2 h)), hragEq, ih3]
      · rw [customToolNode_cons_fst, hp1, hp2, hp3,
          webIds_cons_neg _ _ (fun tc2 heq => absurd heq (fun h => hneO tc2 h)), hwebEq, ih4]

end Agent

namespace Agent

/-- Total successful-source counts over a whole run. -/
def ragTotal (steps : List (List ToolMsg)) : Nat := (steps.map ragCount).sum

/-- Total successful web-source counts over a whole run. -/
def webTotal (steps : List (List ToolMsg)) : Nat := (steps.map webCount).sum

theorem runToolNodes_cons (rc wc : Nat) (s : List ToolMsg) (ss : List (List ToolMsg)) :
    runToolNodes rc wc (s :: ss) =
      ((customToolNode rc wc s).1 ::
         (runToolNodes (customToolNode rc wc s).2.1 (customToolNode rc wc s).2.2 ss).1,
       (runToolNodes (customToolNode rc wc s).2.1 (customToolNode rc wc s).2.2 ss).2) := rfl

theorem runToolNodes_spec (steps : List (List ToolMsg)) : ∀ rc wc : Nat,
    (runToolNodes rc wc steps).2.1 = rc + ragTotal steps ∧
    (runToolNodes rc wc steps).2.2 = wc + webTotal steps ∧
    ((runToolNodes rc wc steps).1.map ragIds).flatten = idsFrom rc (ragTotal steps) ∧
    ((runToolNodes rc wc steps).1.map webIds).flatten = idsFrom wc (webTotal steps) := by
  induction steps with
  | nil =>
    intro rc wc
    simp [runToolNodes, ragTotal, webTotal, idsFrom]
  | cons s ss ih =>
    intro rc wc
    rcases customToolNode_spec s rc wc with ⟨hn1, hn2, hn3, hn4⟩
    rcases ih (rc + ragCount s) (wc + webCount s) with ⟨ih1, ih2, ih3, ih4⟩
    have hragEq : ragTotal (s :: ss) = ragCount s + ragTotal ss := by
      simp [ragTotal]
    have hwebEq : webTotal (s :: ss) = webCount s + webTotal ss := by
      simp [webTotal]
    refine ⟨?_, ?_, ?_, ?_⟩
    · show (runToolNodes rc wc (s :: ss)).2.1 = _
      rw [runToolNodes_cons]
      show (runToolNodes (customToolNode rc wc s).2.1 (customToolNode rc wc s).2.2 ss).2.1 = _
      rw [hn1, hn2, ih1, hragEq]
      omega
    · show (runToolNodes rc wc (s :: ss)).2.2 = _
      rw [runToolNodes_cons]
      show (runToolNodes (customToolNode rc wc s).2.1 (customToolNode rc wc s).2.2 ss).2.2 = _
      rw [hn1, hn2, ih2, hwebEq]
      omega
    · rw [runToolNodes_cons]
      show (ragIds (customToolNode rc wc s).1 ::
          ((runToolNodes (customToolNode rc wc s).2.1 (customToolNode rc wc s).2.2 ss).1.map
            ragIds)).flatten = _
      rw [List.flatten_cons, hn1, hn2, hn3, ih3, hragEq, idsFrom_append]
    · rw [runToolNodes_cons]
      show (webIds (customToolNode rc wc s).1 ::
          ((runToolNodes (customToolNode rc wc s).2.1 (customToolNode rc wc s).2.2 ss).1.map
            webIds)).flatten = _
      rw [List.flatten_cons, hn1, hn2, hn4, ih4, hwebEq, idsFrom_append]

end Agent

/-- C1: over any outbound run — any sequence of tools-node steps, each handed the tool
messages its base tool node produced — starting from the initial state's counters
`rag_counter = web_counter = 0`, the IDs attached to the results of the successful
`rag_search_tool` (resp. `web_search_tool`) messages, concatenated in execution order
over every prefix of the run, are exactly the sequence `"1", "2", …, "n_K"` for `n_K`
the number of successful results of that kind so far, with no gaps and no repeats; and
after each tools-node step the state's `rag_counter` and `web_counter` equal that count,
i.e. the last assigned ID of their kind. -/
theorem c1_source_id_renumbering (steps : List (List Agent.ToolMsg)) (m : Nat) :
    (((Agent.runToolNodes 0 0 (steps.take m)).1.map Agent.ragIds).flatten =
       (List.range (Agent.runToolNodes 0 0 (steps.take m)).2.1).map (fun k => toString (k + 1))) ∧
    (((Agent.runToolNodes 0 0 (steps.take m)).1.map Agent.webIds).flatten =
       (List.range (Agent.runToolNodes 0 0 (steps.take m)).2.2).map (fun k => toString (k + 1))) ∧
    (Agent.runToolNodes 0 0 (steps.take m)).2.1 =
      (((Agent.runToolNodes 0 0 (steps.take m)).1.map Agent.ragIds).flatten).length ∧
    (Agent.runToolNodes 0 0 (steps.take m)).2.2 =
      (((Agent.runToolNodes 0 0 (steps.take m)).1.map Agent.webIds).flatten).length := by
  rcases Agent.runToolNodes_spec (steps.take m) 0 0 with ⟨h1, h2, h3, h4⟩
  rw [h1, h2, h3, h4]
  simp only [Nat.zero_add]
  refine ⟨?_, ?_, ?_, ?_⟩
  · rw [Agent.idsFrom_zero]
  · rw [Agent.idsFrom_zero]
  · rw [Agent.idsFrom_length]
  · rw [Agent.idsFrom_length]

/-!
## RAG retriever

Embedding of `retrieve_similar_chunks`
(`app/pipeline/outbound/rag_retrieval.py`).  The MongoDB Atlas
`$vectorSearch` stage is the external vector-store collaborator: it is an
oracle parameter taking the query vector, the candidate-pool size, the
`limit`, and the pre-filter, and returning scored documents.  The §6 contract
of that collaborator (filter applied before similarity, at most `limit`
results, scores non-increasing) enters the theorems as hypotheses.
Similarity scores are floats in the source; they are modelled as rationals.
-/

namespace Retrieval

/-- Stored chunk document as the aggregation returns it: the persisted fields
that the formatting step reads, the `embedding` vector (present until the
code pops it; components abstracted as rationals), and the engine-assigned
`score` added by the `$addFields` stage. -/
structure MDoc where
  docId : String
  course_id : String
  slide_id : String
  chunk_index : Int
  text : String
  word_count : Int
  char_count : Int
  split_level : String
  page_start : Int
  page_end : Int
  headers_hierarchy : List Int
  headers_hierarchy_titles : List String
  s3_file_name : String
  total_pages : Int
  timestamp : Int
  sentence_sibling_count : Int
  sentence_sibling_index : Int
  updated_at : Int
  is_header : Bool
  header_level : Option Int
  header_text : Option String
  embedding : Option (List Rat)
  score : Rat
  deriving DecidableEq, Repr

/-- Pre-filter document built by `retrieve_similar_chunks`: `course_id` is
always present; `slide_id ∈ slides` and `chunk_index ∈ chunks` constraints
are added only for non-empty lists (Python truthiness). -/
structure FilterQ where
  course : String
  slides : Option (List String)
  chunksF : Option (List Int)
  deriving DecidableEq, Repr

/-- Filter construction: `filter_query = {"course_id": course_id}` plus the
two conditional `$in` constraints. -/
def buildFilterQ (course_id : String) (slides : List String) (chunks : List Int) : FilterQ :=
  { course := course_id
    slides := if slides.isEmpty then none else some slides
    chunksF := if chunks.isEmpty then none else some chunks }

/-- MongoDB semantics of the pre-filter: equality on `course_id` and `$in`
membership for each constraint present. -/
def filterQMatches (f : FilterQ) (d : MDoc) : Bool :=
  d.course_id = f.course &&
  (match f.slides with | none => true | some ss => ss.contains d.slide_id) &&
  (match f.chunksF with | none => true | some cs => cs.contains d.chunk_index)

/-- Formatted result returned to the caller: `id`, a metadata record drawn
from the document fields, and the engine score.  It carries no embedding
field — the code pops `embedding` before shaping the result. -/
structure RetrievedChunk where
  rid : String
  courseId : String
  slideId : String
  chunkIndex : Int
  rawText : String
  wordCount : Int
  charCount : Int
  splitLevel : String
  pageStart : Int
  pageEnd : Int
  headersHierarchy : List Int
  headersHierarchyTitles : List String
  s3_path : String
  totalPages : Int
  timestampM : Int
  sentenceSiblingCount : Int
  sentenceSiblingIndex : Int
  updatedAt : Int
  isHeader : Bool
  headerLevel : Option Int
  headerText : Option String
  score : Rat
  deriving DecidableEq, Repr

/-- Result shaping of `retrieve_similar_chunks`: copy the metadata fields and
the score; the popped embedding does not appear. -/
def formatDoc (d : MDoc) : RetrievedChunk :=
  { rid := d.docId
    courseId := d.course_id
    slideId := d.slide_id
    chunkIndex := d.chunk_index
    rawText := d.text
    wordCount := d.word_count
    charCount := d.char_count
    splitLevel := d.split_level
    pageStart := d.page_start
    pageEnd := d.page_end
    headersHierarchy := d.headers_hierarchy
    headersHierarchyTitles := d.headers_hierarchy_titles
    s3_path := d.s3_file_name
    totalPages := d.total_pages
    timestampM := d.timestamp
    sentenceSiblingCount := d.sentence_sibling_count
    sentenceSiblingIndex := d.sentence_sibling_index
    updatedAt := d.updated_at
    isHeader := d.is_header
    headerLevel := d.header_level
    headerText := d.header_text
    score := d.score }

/-- Erasure of the embedding field, the effect of `doc.pop("embedding", None)`. -/
def dropEmbedding (d : MDoc) : MDoc := { d with embedding := none }

/-- `retrieve_similar_chunks`: build the pre-filter, run the store's
`$vectorSearch` (the oracle `search`, given the query embedding, the
candidate-pool size, the limit and the filter), pop embeddings, and shape
the results. -/
def retrieve_similar_chunks
    (search : List Rat → Nat → Nat → FilterQ → List MDoc)
    (query_embedding : List Rat) (num_candidates : Nat)
    (course_id : String) (slides : List String) (chunks : List Int) (limit : Nat) :
    List RetrievedChunk :=
  (search query_embedding num_candidates limit
    (buildFilterQ course_id slides chunks)).map (fun d => formatDoc (dropEmbedding d))

end Retrieval

/-- C7: assuming the vector-store collaborator honours its contract — every document it
returns satisfies the submitted pre-filter, at most `limit` documents are returned, and
they come ordered by non-increasing engine score — every result of the retriever has the
requested `course_id`, has `slide_id ∈ slides` whenever `slides` is non-empty and
`chunk_index ∈ chunks` whenever `chunks` is non-empty; at most `limit` results are
returned, in non-increasing score order; and the embedding field is removed from every
returned result (the output is shaped from embedding-erased documents, so no embedding
reaches the caller). -/
theorem c7_retriever_prefilter_exactness
    (search : List Rat → Nat → Nat → Retrieval.FilterQ → List Retrieval.MDoc)
    (qe : List Rat) (nc : Nat) (course_id : String) (slides : List String)
    (chunks : List Int) (limit : Nat)
    (hFilter : ∀ d ∈ search qe nc limit (Retrieval.buildFilterQ course_id slides chunks),
      Retrieval.filterQMatches (Retrieval.buildFilterQ course_id slides chunks) d = true)
    (hLen : (search qe nc limit (Retrieval.buildFilterQ course_id slides chunks)).length ≤ limit)
    (hSorted : (search qe nc limit (Retrieval.buildFilterQ course_id slides chunks)).Pairwise
      (fun a b => b.score ≤ a.score)) :
    (∀ r ∈ Retrieval.retrieve_similar_chunks search qe nc course_id slides chunks limit,
       r.courseId = course_id ∧
       (slides ≠ [] → r.slideId ∈ slides) ∧
       (chunks ≠ [] → r.chunkIndex ∈ chunks)) ∧
    (Retrieval.retrieve_similar_chunks search qe nc course_id slides chunks limit).length ≤ limit ∧
    (Retrieval.retrieve_similar_chunks search qe nc course_id slides chunks limit).Pairwise
      (fun a b => b.score ≤ a.score) ∧
    Retrieval.retrieve_similar_chunks search qe nc course_id slides chunks limit =
      (search qe nc limit (Retrieval.buildFilterQ course_id slides chunks)).map
        (fun d => Retrieval.formatDoc (Retrieval.dropEmbedding d)) := by
  refine ⟨?_, ?_, ?_, rfl⟩
  · intro r hr
    rw [Retrieval.retrieve_similar_chunks] at hr
    rcases List.mem_map.mp hr with ⟨d, hd, rfl⟩
    have hm := hFilter d hd
    rw [Retrieval.filterQMatches] at hm
    simp only [Bool.and_eq_true, decide_eq_true_eq] at hm
    obtain ⟨⟨hm1, hm2⟩, hm3⟩ := hm
    have h1 : d.course_id = course_id := hm1
    refine ⟨h1, ?_, ?_⟩
    · intro hne
      have hs : slides.isEmpty = false := by
        cases slides with
        | nil => exact absurd rfl hne
        | cons a l => rfl
      have hsl : (Retrieval.buildFilterQ course_id slides chunks).slides = some slides := by
        simp [Retrieval.buildFilterQ, hs]
      rw [hsl] at hm2
      have hcont : slides.contains d.slide_id = true := hm2
      have hmem : d.slide_id ∈ slides := List.mem_of_elem_eq_true hcont
      exact hmem
    · intro hne
      have hs : chunks.isEmpty = false := by
        cases chunks with
        | nil => exact absurd rfl hne
        | cons a l => rfl
      have hcl : (Retrieval.buildFilterQ course_id slides chunks).chunksF = some chunks := by
        simp [Retrieval.buildFilterQ, hs]
      rw [hcl] at hm3
      have hcont : chunks.contains d.chunk_index = true := hm3
      have hmem : d.chunk_index ∈ chunks := List.mem_of_elem_eq_true hcont
      exact hmem
  · rw [Retrieval.retrieve_similar_chunks, List.length_map]
    exact hLen
  · rw [Retrieval.retrieve_similar_chunks]
    exact List.Pairwise.map _ (fun a b h => h) hSorted

/-- Concrete stored document used to witness the retriever theorem. -/
def c7WitnessDoc : Retrieval.MDoc :=
  { docId := "C:S1:0"
    course_id := "C"
    slide_id := "S1"
    chunk_index := 0
    text := "supply and demand"
    word_count := 3
    char_count := 17
    split_level := "markdown"
    page_start := 1
    page_end := 1
    headers_hierarchy := []
    headers_hierarchy_titles := []
    s3_file_name := "a.pdf"
    total_pages := 1
    timestamp := 0
    sentence_sibling_count := 1
    sentence_sibling_index := 0
    updated_at := 0
    is_header := false
    header_level := none
    header_text := none
    embedding := some [1]
    score := 1 }

/-- Concrete vector-store oracle used to witness the retriever theorem. -/
def c7WitnessSearch : List Rat → Nat → Nat → Retrieval.FilterQ → List Retrieval.MDoc :=
  fun _ _ _ _ => [c7WitnessDoc]

/-- C7 (witness): the retriever theorem applied to a concrete store returning one
matching document, with its contract hypotheses discharged by evaluation. -/
theorem c7_retriever_prefilter_exactness_witness :
    (∀ r ∈ Retrieval.retrieve_similar_chunks c7WitnessSearch [(1 : Rat)] 10 "C" ["S1"] [] 2,
       r.courseId = "C" ∧ ((["S1"] : List String) ≠ [] → r.slideId ∈ ["S1"]) ∧
       (([] : List Int) ≠ [] → r.chunkIndex ∈ ([] : List Int))) ∧
    (Retrieval.retrieve_similar_chunks c7WitnessSearch [(1 : Rat)] 10 "C" ["S1"] [] 2).length ≤ 2 := by
  have h := c7_retriever_prefilter_exactness c7WitnessSearch [(1 : Rat)] 10 "C" ["S1"] [] 2
    (by
      intro d hd
      rcases List.mem_singleton.mp hd with rfl
      rfl)
    (by decide)
    (by simp [c7WitnessSearch])
  exact ⟨h.1, h.2.1⟩

/-!
## Agent state manager (cache + primary store)

Embedding of `ai_service/app/pipeline/outbound/agent_state.py`.  The Redis
cache and the MongoDB primary store are modelled as total maps (the claims
under verification do not concern store failures, so the `try/except`
fallbacks for unavailable stores are not exercised).  A Python string value
holding JSON is modelled by the parsed shape it denotes: `MContent.js` for a
tool-output object, the three summary constructors for the truncation
summaries written by `_process_messages_for_history` (whose JSON text they
denote), `MContent.text` for any other string and `MContent.multi` for
list-valued (multimodal) content.  A dictionary key that may be absent or
`None` is an `Option`; `additional_kwargs` and `response_metadata` are
opaque strings, with `""` denoting the empty dict.
-/

namespace StateMgr

/-- Source object inside a tool result array: its `id` plus an opaque
remainder for the tool-specific fields. -/
structure TSource where
  id : String
  payload : String
  deriving DecidableEq, Repr

/-- Parsed JSON object of a tool's output string: `success`, the `results`
array, and the optional `error` string. -/
structure ToolJson where
  success : Bool
  results : List TSource
  error : Option String
  deriving DecidableEq, Repr

/-- One part of a list-valued (multimodal) message content. -/
inductive MPart where
  | textP (s : String)
  | imageP (u : String)
  deriving DecidableEq, Repr

/-- Message content, by the JSON shape the stored string denotes (see the
section comment). -/
inductive MContent where
  | js (t : ToolJson)
  | sumOk (tool : Option String) (result_count : Nat) (message : String)
  | sumErr (tool : Option String) (error : String)
  | sumPlain (tool : Option String) (message : String)
  | text (s : String)
  | multi (parts : List MPart)
  deriving DecidableEq, Repr

/-- In-memory LangChain message (`HumanMessage`, `AIMessage`,
`SystemMessage`, `ToolMessage`): content, `id`, `name`, the kind-specific
fields, and the opaque `additional_kwargs` / `response_metadata`. -/
inductive LMsg where
  | human (content : MContent) (mid : Option String) (mname : Option String) (ak rm : String)
  | ai (content : MContent) (mid : Option String) (mname : Option String)
      (tool_calls : List String) (ak rm : String)
  | system (content : MContent) (mid : Option String) (mname : Option String) (ak rm : String)
  | tool (content : MContent) (mid : Option String) (mname : Option String)
      (tool_call_id : Option String) (ak rm : String)
  deriving DecidableEq, Repr

/-- The `id` attribute of a message. -/
def idOf : LMsg → Option String
  | .human _ mid _ _ _ => mid
  | .ai _ mid _ _ _ _ => mid
  | .system _ mid _ _ _ => mid
  | .tool _ mid _ _ _ _ => mid

/-- The `image_source` object embedded in a serialized assistant message. -/
structure ImageSrc where
  s3key : Option String
  slideId : Option String
  page_number : Option Int
  deriving DecidableEq, Repr

/-- One entry of a `sources_map` as the agent's `format_response` node builds
it (`rag_source_ids`, `web_source_ids`, `timestamp`, and the snapshot fields
when present), and as `append_messages` rebuilds it from stored assistant
messages (then without a timestamp). -/
structure SrcMapEntry where
  rag_source_ids : List String
  web_source_ids : List String
  tstamp : Option String
  s3key : Option String
  slideId : Option String
  page_number : Option Int
  deriving DecidableEq, Repr

/-- The sources packet `save_sources` writes (`messages.$.sources` in the
primary store and the Redis sources hash): this is also the value shape
`get_sources_for_messages` returns. -/
structure SourcesData where
  message_id : String
  rag_sources : List TSource
  web_sources : List TSource
  tstamp : String
  deriving DecidableEq, Repr

/-- Serialized message dictionary as `serialize_message` writes it.  The keys
`rag_source_ids`, `web_source_ids` and `image_source` exist only on assistant
messages serialized with sources; the `sources` subdocument is written only
by `save_sources`. -/
structure SMsg where
  mtype : String
  content : MContent
  ak : String
  rm : String
  mid : Option String
  mname : Option String
  tool_calls : List String
  tool_call_id : Option String
  rag_source_ids : Option (List String)
  web_source_ids : Option (List String)
  image_source : Option ImageSrc
  sources : Option SourcesData
  deriving DecidableEq, Repr

/-- Image stripping applied by `serialize_message` to list-valued user
content: keep the `"text"` parts; a single surviving part collapses to its
text, an empty result becomes `""`. -/
def filterHumanContent : MContent → MContent
  | .multi parts =>
    match parts.filterMap (fun p => match p with | .textP s => some s | .imageP _ => none) with
    | [] => .text ""
    | [t] => .text t
    | ts => .multi (ts.map .textP)
  | c => c

/-- `serialize_message(message, sources)`.  Only an `AIMessage` with a truthy
`sources` argument receives `rag_source_ids` / `web_source_ids`, and
`image_source` only when `sources.get("s3key")` is truthy (a non-empty
string). -/
def serialize_message : LMsg → Option SrcMapEntry → SMsg
  | .human content mid mname ak rm, _ =>
    { mtype := "human", content := filterHumanContent content, ak := ak, rm := rm,
      mid := mid, mname := mname, tool_calls := [], tool_call_id := none,
      rag_source_ids := none, web_source_ids := none, image_source := none, sources := none }
  | .ai content mid mname tcs ak rm, sources =>
    let base : SMsg :=
      { mtype := "ai", content := content, ak := ak, rm := rm,
        mid := mid, mname := mname, tool_calls := tcs, tool_call_id := none,
        rag_source_ids := none, web_source_ids := none, image_source := none, sources := none }
    match sources with
    | none => base
    | some s =>
      { base with
        rag_source_ids := some s.rag_source_ids
        web_source_ids := some s.web_source_ids
        image_source :=
          match s.s3key with
          | some k =>
            if k ≠ "" then
              some { s3key := some k, slideId := s.slideId, page_number := s.page_number }
            else none
          | none => none }
  | .system content mid mname ak rm, _ =>
    { mtype := "system", content := content, ak := ak, rm := rm,
      mid := mid, mname := mname, tool_calls := [], tool_call_id := none,
      rag_source_ids := none, web_source_ids := none, image_source := none, sources := none }
  | .tool content mid mname tcid ak rm, _ =>
    { mtype := "tool", content := content, ak := ak, rm := rm,
      mid := mid, mname := mname, tool_calls := [], tool_call_id := tcid,
      rag_source_ids := none, web_source_ids := none, image_source := none, sources := none }

/-- `deserialize_message(data)`: rebuild the LangChain message by `type`;
source references and the `sources` subdocument are not carried back, and
`response_metadata` is restored only on assistant messages. -/
def deserialize_message (d : SMsg) : LMsg :=
  if d.mtype = "human" then .human d.content d.mid d.mname d.ak ""
  else if d.mtype = "ai" then .ai d.content d.mid d.mname d.tool_calls d.ak d.rm
  else if d.mtype = "system" then .system d.content d.mid d.mname d.ak ""
  else if d.mtype = "tool" then .tool d.content d.mid d.mname d.tool_call_id d.ak ""
  else .human d.content none none "" ""

/-- Truncation of one tool message's content by
`_process_messages_for_history`.  `tool` is `msg.get("name", "unknown")`:
serialized messages always carry the `name` key, so it is the stored name
value.  A string content that parses with a truthy `"success"` yields the
success summary (`result_count` from `len(content.get("results", []))`), any
other parsed object yields the failure summary with
`content.get("error", "Unknown error")`, and empty, non-string or unparsable
content yield the plain summary. -/
def truncateToolContent (c : MContent) (tool : Option String) : MContent :=
  match c with
  | .js t =>
    if t.success then
      .sumOk tool t.results.length
        ("Retrieved " ++ toString t.results.length ++
          " sources. Use retrieve_previous_sources to access full content.")
    else
      .sumErr tool (t.error.getD "Unknown error")
  | .sumOk _ _ _ =>
    .sumOk tool 0 "Retrieved 0 sources. Use retrieve_previous_sources to access full content."
  | .sumErr _ e => .sumErr tool e
  | .sumPlain _ _ => .sumErr tool "Unknown error"
  | .text _ => .sumPlain tool "Tool called. Use retrieve_previous_sources to access full content."
  | .multi _ => .sumPlain tool "Tool called. Use retrieve_previous_sources to access full content."

/-- `_process_messages_for_history`: truncate every message of type `tool`
(working on a copy), leave every other message as is. -/
def processMessagesForHistory (msgs : List SMsg) : List SMsg :=
  msgs.map fun m =>
    if m.mtype = "tool" then { m with content := truncateToolContent m.content m.mname } else m

/-- Conversation document of the primary store. -/
structure MongoDoc where
  thread_id : String
  user_id : String
  course_id : String
  messages : List SMsg
  updated_at : String
  message_count : Nat
  created_at : String
  deriving DecidableEq, Repr

/-- The two stores: the Redis cache (serialized message list under
`agent_state:{thread}` and the sources hash under `agent_sources:{thread}`)
and the MongoDB conversations collection keyed by `thread_id`. -/
structure Stores where
  redisState : String → Option (List SMsg)
  redisSources : String → String → Option SourcesData
  mongo : String → Option MongoDoc

/-- Pointwise update of a string-keyed map. -/
def updFun {α : Type} (f : String → α) (k : String) (v : α) : String → α :=
  fun x => if x = k then v else f x

/-- Python `lst[-n:]` (also MongoDB `$slice: -n` for `n > 0`); `n = 0` keeps
the whole list, as `lst[-0:]` does. -/
def pySliceLast {α : Type} (n : Nat) (l : List α) : List α :=
  if n = 0 then l else l.drop (l.length - n)

/-- `get_thread_id`. -/
def threadId (user course : String) : String := user ++ ":" ++ course

/-- The message slice `get_conversation_history` reads: the cached list when
the cache holds the thread, else the primary document's slice, else nothing. -/
def historySlice (st : Stores) (tid : String) (limit : Nat) : List SMsg :=
  match st.redisState tid with
  | some msgs => pySliceLast limit msgs
  | none =>
    match st.mongo tid with
    | some doc => pySliceLast limit doc.messages
    | none => []

/-- `get_conversation_history`: read the slice (cache first, primary store on
a miss — which also warms the cache with the untruncated slice), truncate
tool contents, deserialize.  Returns the messages and the stores afterwards. -/
def get_conversation_history (st : Stores) (user course : String) (limit : Nat) :
    List LMsg × Stores :=
  let tid := threadId user course
  match st.redisState tid with
  | some msgs =>
    ((processMessagesForHistory (pySliceLast limit msgs)).map deserialize_message, st)
  | none =>
    match st.mongo tid with
    | some doc =>
      let sliced := pySliceLast limit doc.messages
      ((processMessagesForHistory sliced).map deserialize_message,
       { st with redisState := updFun st.redisState tid (some sliced) })
    | none => ([], st)

/-- `json.loads` on a stored content value: succeeds exactly on the
JSON-object shapes, yielding the parsed object. -/
def parseContent : MContent → Option MContent
  | .js t => some (.js t)
  | .sumOk a b c => some (.sumOk a b c)
  | .sumErr a b => some (.sumErr a b)
  | .sumPlain a b => some (.sumPlain a b)
  | .text _ => none
  | .multi _ => none

/-- Entry of the dictionary `get_tool_messages` returns. -/
structure ToolMsgOut where
  tool_name : Option String
  contentOut : MContent
  tool_call_id : Option String
  deriving DecidableEq, Repr

/-- One accumulation step of `get_tool_messages`: a stored message of type
`tool` whose `id` is among the requested ones and whose content parses is
entered into the dictionary (later messages with the same `id` overwrite). -/
def gtmStep (ids : List String) (acc : String → Option ToolMsgOut) (m : SMsg) :
    String → Option ToolMsgOut :=
  match m.mid with
  | some i =>
    if m.mtype = "tool" ∧ ids.contains i then
      match parseContent m.content with
      | some pc =>
        updFun acc i (some ⟨m.mname, pc, m.tool_call_id⟩)
      | none => acc
    else acc
  | none => acc

/-- `get_tool_messages`: read the primary store only (tool content is never
truncated there) and collect the requested tool messages. -/
def get_tool_messages (st : Stores) (user course : String) (ids : List String) :
    String → Option ToolMsgOut :=
  match st.mongo (threadId user course) with
  | none => fun _ => none
  | some doc => doc.messages.foldl (gtmStep ids) (fun _ => none)

end StateMgr

namespace StateMgr

/-- Association-list lookup (Python `dict.get`). -/
def lookupA {α : Type} (m : List (String × α)) (k : String) : Option α :=
  (m.find? (fun p => p.1 = k)).map (·.2)

/-- Association-list assignment (Python `dict[k] = v`): overwrite a present
key, append a new one. -/
def updAssoc {α : Type} (m : List (String × α)) (k : String) (v : α) : List (String × α) :=
  if m.any (fun p => p.1 = k) then m.map (fun p => if p.1 = k then (k, v) else p)
  else m ++ [(k, v)]

/-- The `sources` argument computed for one message in
`save_messages_with_sources`: `sources_map.get(msg_id) if sources_map and
msg_id else None` (an empty map and an empty or absent id are falsy). -/
def sourcesFor (sm : List (String × SrcMapEntry)) (m : LMsg) : Option SrcMapEntry :=
  match idOf m with
  | some i => if sm ≠ [] ∧ i ≠ "" then lookupA sm i else none
  | none => none

/-- `save_messages_with_sources`: serialize every message with its sources
entry, overwrite the primary document (preserving `created_at` of an
existing one, per `$setOnInsert`), then overwrite the cached list.  `now` is
the wall-clock ISO timestamp. -/
def save_messages_with_sources (st : Stores) (user course : String) (msgs : List LMsg)
    (sm : List (String × SrcMapEntry)) (now : String) : Stores :=
  let tid := threadId user course
  let serialized := msgs.map (fun m => serialize_message m (sourcesFor sm m))
  let created := match st.mongo tid with | some old => old.created_at | none => now
  let doc : MongoDoc :=
    { thread_id := tid, user_id := user, course_id := course, messages := serialized,
      updated_at := now, message_count := serialized.length, created_at := created }
  { st with mongo := updFun st.mongo tid (some doc),
            redisState := updFun st.redisState tid (some serialized) }

/-- Truthiness of a stored source-id list: present and non-empty. -/
def truthyIds : Option (List String) → Bool
  | some (_ :: _) => true
  | _ => false

/-- The per-message step of `append_messages`' preservation pass: an
assistant message with a truthy `id` and any of `rag_source_ids`,
`web_source_ids`, `image_source` truthy contributes an entry (without a
timestamp; the snapshot fields only when `image_source` is present). -/
def existingSourcesStep (acc : List (String × SrcMapEntry)) (m : SMsg) :
    List (String × SrcMapEntry) :=
  match m.mid with
  | some i =>
    if i ≠ "" ∧ m.mtype = "ai" ∧
        (truthyIds m.rag_source_ids ∨ truthyIds m.web_source_ids ∨ m.image_source.isSome) then
      updAssoc acc i
        { rag_source_ids := m.rag_source_ids.getD []
          web_source_ids := m.web_source_ids.getD []
          tstamp := none
          s3key := match m.image_source with | some img => img.s3key | none => none
          slideId := match m.image_source with | some img => img.slideId | none => none
          page_number := match m.image_source with | some img => img.page_number | none => none }
    else acc
  | none => acc

/-- The map from existing assistant-message ids to their stored source
references, built by `append_messages` before the merge. -/
def buildExistingSources (msgs : List SMsg) : List (String × SrcMapEntry) :=
  msgs.foldl existingSourcesStep []

/-- Python `dict.update`: merge the new map into the old one, new wins. -/
def mergeSources (old new2 : List (String × SrcMapEntry)) : List (String × SrcMapEntry) :=
  new2.foldl (fun acc p => updAssoc acc p.1 p.2) old

/-- `append_messages`: with an existing primary document, preserve its
assistant-source references, merge in the new `sources_map` (new wins),
concatenate the raw stored messages with the serialized new ones, cap at the
last 100, deserialize everything and save with the merged sources; without
one, just save the new messages with the new map. -/
def append_messages (st : Stores) (user course : String) (new_messages : List LMsg)
    (sm : List (String × SrcMapEntry)) (now : String) : Stores :=
  let tid := threadId user course
  match st.mongo tid with
  | some doc =>
    let existing := buildExistingSources doc.messages
    let merged := if sm ≠ [] then mergeSources existing sm else existing
    let new_serialized := new_messages.map (fun m => serialize_message m (sourcesFor sm m))
    let all_data := doc.messages ++ new_serialized
    let all_data := if all_data.length > 100 then pySliceLast 100 all_data else all_data
    let all_messages := all_data.map deserialize_message
    save_messages_with_sources st user course all_messages merged now
  | none => save_messages_with_sources st user course new_messages sm now

/-- `get_sources_for_messages`: per requested id, try the Redis sources hash;
for the ids it misses, scan the primary document for messages with a
`sources` subdocument (written only by `save_sources`), warming the cache
with what is found.  Returns the id-indexed dictionary and the stores
afterwards. -/
def get_sources_for_messages (st : Stores) (user course : String) (ids : List String) :
    (String → Option SourcesData) × Stores :=
  let tid := threadId user course
  let hits := ids.filterMap (fun i => (st.redisSources tid i).map (fun v => (i, v)))
  let missing := ids.filter (fun i => (st.redisSources tid i).isNone)
  let afterRedis := hits.foldl (fun acc p => updFun acc p.1 (some p.2)) (fun _ => none)
  if missing.isEmpty then (afterRedis, st)
  else
    match st.mongo tid with
    | none => (afterRedis, st)
    | some doc =>
      let adds := doc.messages.filterMap (fun m =>
        match m.mid, m.sources with
        | some i, some s => if missing.contains i then some (i, s) else none
        | _, _ => none)
      (adds.foldl (fun acc p => updFun acc p.1 (some p.2)) afterRedis,
       { st with redisSources :=
          fun t k =>
            if t = tid then
              match (adds.reverse.find? (fun p => p.1 = k)) with
              | some p => some p.2
              | none => st.redisSources t k
            else st.redisSources t k })

end StateMgr

/-- Fresh stores: empty cache, empty primary store. -/
def c6EmptyStores : StateMgr.Stores :=
  { redisState := fun _ => none, redisSources := fun _ _ => none, mongo := fun _ => none }

/-- A sources record as the agent's `format_response` node produces it. -/
def c6S : StateMgr.SrcMapEntry :=
  { rag_source_ids := ["1", "2"], web_source_ids := [], tstamp := some "2025-01-01T00:00:00Z",
    s3key := none, slideId := none, page_number := none }

/-- The appended assistant message carrying id `a1`. -/
def c6Assistant : StateMgr.LMsg :=
  .ai (.text "A monopoly is a single seller. [^1]") (some "a1") none [] "" ""

/-- The stores after `append_messages(u, c, [assistant a1], sources_map={a1: S})`. -/
def c6AfterAppend : StateMgr.Stores :=
  StateMgr.append_messages c6EmptyStores "u" "c" [c6Assistant] [("a1", c6S)] "T0"

/-- C6: evaluated at the failing input — a fresh thread, one appended assistant message
with id `a1` and `sources_map = {a1: S}` — `get_sources_for_messages` returns nothing
for `a1` (first conjunct), even though the append did persist the sources onto the
assistant message in the primary store as `rag_source_ids`/`web_source_ids` (second
conjunct; the `sources` subdocument the reader looks for stays absent, and the Redis
sources hash it checks first is never written by the append path). -/
theorem c6_sources_roundtrip_code_bug :
    (StateMgr.get_sources_for_messages c6AfterAppend "u" "c" ["a1"]).1 "a1" = none ∧
    (c6AfterAppend.mongo "u:c").map
        (fun d => d.messages.map (fun m => (m.mid, m.rag_source_ids, m.web_source_ids, m.sources))) =
      some [(some "a1", some ["1", "2"], some [], none)] := by
  constructor
  · rfl
  · rfl

namespace StateMgr

theorem gtmStep_eq_none (ids : List String) (acc : String → Option ToolMsgOut) (x : SMsg)
    (hmid : x.mid = none) : gtmStep ids acc x = acc := by
  rw [gtmStep, hmid]

theorem gtmStep_eq_some (ids : List String) (acc : String → Option ToolMsgOut) (x : SMsg)
    (j : String) (hmid : x.mid = some j) :
    gtmStep ids acc x =
      if x.mtype = "tool" ∧ ids.contains j then
        match parseContent x.content with
        | some pc => updFun acc j (some ⟨x.mname, pc, x.tool_call_id⟩)
        | none => acc
      else acc := by
  rw [gtmStep, hmid]

theorem gtmStep_ne (ids : List String) (acc : String → Option ToolMsgOut) (x : SMsg)
    (i : String) (hx : ¬ (x.mtype = "tool" ∧ x.mid = some i)) :
    gtmStep ids acc x i = acc i := by
  rcases hmid : x.mid with _ | j
  · rw [gtmStep_eq_none ids acc x hmid]
  · rw [gtmStep_eq_some ids acc x j hmid]
    by_cases hc : x.mtype = "tool" ∧ ids.contains j
    · rw [if_pos hc]
      have hji : j ≠ i := by
        rintro rfl
        exact hx ⟨hc.1, hmid⟩
      rcases hp : parseContent x.content with _ | pc
      · rfl
      · show updFun acc j _ i = acc i
        rw [updFun, if_neg (fun h => hji h.symm)]
    · rw [if_neg hc]

theorem gtm_noWriter (ids : List String) (i : String) : ∀ (xs : List SMsg)
    (acc : String → Option ToolMsgOut),
    xs.filter (fun y => decide (y.mtype = "tool" ∧ y.mid = some i)) = [] →
    (xs.foldl (gtmStep ids) acc) i = acc i := by
  intro xs
  induction xs with
  | nil => intro acc _; rfl
  | cons x xs ih =>
    intro acc hfil
    by_cases hx : x.mtype = "tool" ∧ x.mid = some i
    · rw [List.filter_cons_of_pos (by simpa using hx)] at hfil
      exact absurd hfil (by simp)
    · rw [List.filter_cons_of_neg (by simpa using hx)] at hfil
      show (xs.foldl (gtmStep ids) (gtmStep ids acc x)) i = acc i
      rw [ih (gtmStep ids acc x) hfil, gtmStep_ne ids acc x i hx]

theorem gtm_fold_at (ids : List String) (i : String) (m : SMsg) (pc : MContent)
    (hin : ids.contains i = true) (hparse : parseContent m.content = some pc) :
    ∀ (l : List SMsg) (acc : String → Option ToolMsgOut),
    l.filter (fun x => decide (x.mtype = "tool" ∧ x.mid = some i)) = [m] →
    (l.foldl (gtmStep ids) acc) i = some ⟨m.mname, pc, m.tool_call_id⟩ := by
  intro l
  induction l with
  | nil => intro acc h; exact absurd h (by simp)
  | cons x xs ih =>
    intro acc hfil
    by_cases hx : x.mtype = "tool" ∧ x.mid = some i
    · rw [List.filter_cons_of_pos (by simpa using hx)] at hfil
      have hxm : x = m := (List.cons_eq_cons.mp hfil).1
      have hrest : xs.filter (fun x => decide (x.mtype = "tool" ∧ x.mid = some i)) = [] :=
        (List.cons_eq_cons.mp hfil).2
      subst hxm
      show (xs.foldl (gtmStep ids) (gtmStep ids acc x)) i = _
      rw [gtm_noWriter ids i xs _ hrest]
      rcases hx with ⟨htool, hmid⟩
      rw [gtmStep_eq_some ids acc x i hmid]
      rw [if_pos ⟨htool, hin⟩, hparse]
      show updFun acc i _ i = _
      rw [updFun, if_pos rfl]
    · rw [List.filter_cons_of_neg (by simpa using hx)] at hfil
      exact ih (gtmStep ids acc x) hfil

end StateMgr

/-- A stored successful tool message (full content in the primary store). -/
def c5ToolStored : StateMgr.SMsg :=
  { mtype := "tool"
    content := .js { success := true, results := [⟨"1", "r1"⟩, ⟨"2", "r2"⟩], error := none }
    ak := "", rm := ""
    mid := some "t1"
    mname := some "rag_search_tool"
    tool_calls := []
    tool_call_id := some "call1"
    rag_source_ids := none, web_source_ids := none, image_source := none, sources := none }

/-- A stored failed tool message. -/
def c5FailStored : StateMgr.SMsg :=
  { mtype := "tool"
    content := .js { success := false, results := [], error := some "boom" }
    ak := "", rm := ""
    mid := some "t2"
    mname := some "web_search_tool"
    tool_calls := []
    tool_call_id := some "call2"
    rag_source_ids := none, web_source_ids := none, image_source := none, sources := none }

/-- A primary-store conversation document holding the two tool messages. -/
def c5Doc : StateMgr.MongoDoc :=
  { thread_id := "u:c", user_id := "u", course_id := "c"
    messages := [c5ToolStored, c5FailStored]
    updated_at := "T", message_count := 2, created_at := "T" }

/-- Stores with an empty cache and that document in the primary store. -/
def c5Stores : StateMgr.Stores :=
  { redisState := fun _ => none
    redisSources := fun _ _ => none
    mongo := fun t => if t = "u:c" then some c5Doc else none }

/-- C5 (counterexample): the claim's exact summary forms fail on the code.  Reading the
history of the concrete store truncates the successful tool message to a summary whose
`message` is `"Retrieved 2 sources. Use retrieve_previous_sources to access full
content."` — not the claimed `"Use retrieve_previous_sources to access full content."`
— and truncates the failed tool message to `{success, tool, error}` with no `message`
field at all (the `sumErr` form carries none). -/
theorem c5_truncation_counterexample :
    (StateMgr.get_conversation_history c5Stores "u" "c" 50).1 =
      [ .tool (.sumOk (some "rag_search_tool") 2
          "Retrieved 2 sources. Use retrieve_previous_sources to access full content.")
          (some "t1") (some "rag_search_tool") (some "call1") "" "",
        .tool (.sumErr (some "web_search_tool") "boom")
          (some "t2") (some "web_search_tool") (some "call2") "" "" ] ∧
    ("Retrieved 2 sources. Use retrieve_previous_sources to access full content." ≠
      "Use retrieve_previous_sources to access full content.") := by
  constructor
  · rfl
  · decide

/-- C5 (amended): `get_conversation_history` leaves the primary store untouched and
returns exactly the deserialized, tool-truncated read slice; a parsed tool content is
summarised as `{success: true, tool, result_count, message: "Retrieved N sources. Use
retrieve_previous_sources to access full content."}` on success and as
`{success: false, tool, error}` (no message field) on failure; and `get_tool_messages`
returns, for every requested id held by a unique stored tool message with parsable
content, its full untruncated parsed content with `tool_name` and `tool_call_id`. -/
theorem c5_history_truncation_amended
    (st : StateMgr.Stores) (user course : String) (limit : Nat)
    (ids : List String) (i : String) (doc : StateMgr.MongoDoc) (m : StateMgr.SMsg)
    (pc : StateMgr.MContent)
    (hdoc : st.mongo (StateMgr.threadId user course) = some doc)
    (huniq : doc.messages.filter
      (fun x => decide (x.mtype = "tool" ∧ x.mid = some i)) = [m])
    (hin : ids.contains i = true)
    (hparse : StateMgr.parseContent m.content = some pc) :
    (StateMgr.get_conversation_history st user course limit).2.mongo = st.mongo ∧
    (StateMgr.get_conversation_history st user course limit).1 =
      (StateMgr.processMessagesForHistory
        (StateMgr.historySlice st (StateMgr.threadId user course) limit)).map
        StateMgr.deserialize_message ∧
    (∀ (t : StateMgr.ToolJson) (tool : Option String),
      StateMgr.truncateToolContent (.js t) tool =
        if t.success then
          .sumOk tool t.results.length
            ("Retrieved " ++ toString t.results.length ++
              " sources. Use retrieve_previous_sources to access full content.")
        else .sumErr tool (t.error.getD "Unknown error")) ∧
    StateMgr.get_tool_messages st user course ids i =
      some ⟨m.mname, pc, m.tool_call_id⟩ := by
  refine ⟨?_, ?_, ?_, ?_⟩
  · rw [StateMgr.get_conversation_history]
    rcases hr : st.redisState (StateMgr.threadId user course) with _ | msgs
    · rw [hdoc]
    · rfl
  · rw [StateMgr.get_conversation_history, StateMgr.historySlice]
    rcases hr : st.redisState (StateMgr.threadId user course) with _ | msgs
    · rw [hdoc]
    · rfl
  · intro t tool
    rw [StateMgr.truncateToolContent]
  · rw [StateMgr.get_tool_messages, hdoc]
    exact StateMgr.gtm_fold_at ids i m pc hin hparse doc.messages _ huniq

/-- C5 (witness): the amended theorem applied to the concrete store, hypotheses
discharged by evaluation. -/
theorem c5_history_truncation_amended_witness :
    (StateMgr.get_conversation_history c5Stores "u" "c" 50).2.mongo = c5Stores.mongo ∧
    StateMgr.get_tool_messages c5Stores "u" "c" ["t1"] "t1" =
      some ⟨some "rag_search_tool",
        .js { success := true, results := [⟨"1", "r1"⟩, ⟨"2", "r2"⟩], error := none },
        some "call1"⟩ := by
  have h := c5_history_truncation_amended c5Stores "u" "c" 50 ["t1"] "t1" c5Doc c5ToolStored
    (.js { success := true, results := [⟨"1", "r1"⟩, ⟨"2", "r2"⟩], error := none })
    rfl (by decide) (by decide) rfl
  exact ⟨h.1, h.2.2.2⟩

/-!
## Chunker

Embedding of `process_chunks_langchain` and its helpers
(`app/pipeline/inbound/chunking/chunking.py`).  The two LangChain text
splitters are external collaborators: `MarkdownHeaderTextSplitter.split_text`
is represented by the list `docs` of the produced chunk contents (its output
need not consist of substrings of the markdown — it re-joins stripped lines
— which is why the code falls back to `char_position` on a failed `find`),
and `RecursiveCharacterTextSplitter.split_text` by the oracle `recSplit`
carried in the context.  `time.time()` is the context's clock value `now`
(the code reads the clock once per chunk; within-run drift is irrelevant to
every claim, run-to-run difference is what matters).  Character positions
are `Int` because Python's `find` returns `-1` and
`chunk_start = parent_start + text.find(sub_text, local_pos)` propagates it.
-/

namespace Chunking

/-- `split_level` of a chunk. -/
inductive SplitLevel where
  | markdown
  | recursive
  deriving DecidableEq, Repr

/-- The metadata `convert_pdf_to_markdown` hands to the chunker:
`total_pages` and the `page_markers` mapping (character offset, 1-based page). -/
structure Meta where
  total_pages : Int
  page_markers : List (Int × Int)
  deriving DecidableEq, Repr

/-- A chunk dictionary as `process_chunks_langchain` builds it.  The optional
header attributes model the keys that are set only on header chunks;
`is_header := false` stands for the absent key. -/
structure Chunk where
  cid : String
  embedding : Option (List Int)
  text : List Char
  word_count : Nat
  char_count : Nat
  split_level : SplitLevel
  original_chunk_id : Nat
  chunk_index : Nat
  page_start : Int
  page_end : Int
  headers_hierarchy : List Nat
  headers_hierarchy_titles : List (List Char)
  char_start_pos : Int
  char_end_pos : Int
  course_id : String
  slide_id : String
  s3_file_name : String
  total_pages : Int
  timestamp : Nat
  sentence_sibling_count : Nat
  sentence_sibling_index : Nat
  is_header : Bool
  header_level : Option Nat
  header_text : Option (List Char)
  deriving DecidableEq, Repr

/-- First loop of `get_page_numbers`: walk the sorted markers, remember the
last page whose offset is `≤ char_start`, stop at the first greater offset. -/
def startPageLoop : List (Int × Int) → Int → Int → Int
  | [], _, acc => acc
  | (pos, pg) :: rest, cs, acc =>
    if cs < pos then acc else startPageLoop rest cs pg

/-- Second loop of `get_page_numbers`: walk the sorted markers; at the first
offset `≥ char_end` answer the previous page, otherwise remember the page. -/
def endPageLoop : List (Int × Int) → Int → Int → Int
  | [], _, acc => acc
  | (pos, pg) :: rest, ce, _ =>
    if ce ≤ pos then pg - 1 else endPageLoop rest ce pg

/-- `get_page_numbers(char_start, char_end, page_markers, total_pages)`:
`(1, 1)` for an empty mapping, otherwise the two loops over
`sorted(page_markers.items())` (a Python dict has unique keys, so sorting
the items is sorting by offset) and `(page_start, max(page_start, page_end))`. -/
def get_page_numbers (cs ce : Int) (markers : List (Int × Int)) (total : Int) : Int × Int :=
  if markers.isEmpty then (1, 1)
  else
    let sorted := PyStr.stableSortByKey (fun p => p.1) markers
    let ps := startPageLoop sorted cs 1
    let pe := endPageLoop sorted ce total
    (ps, max ps pe)

/-- Inputs of one chunking run: the concatenated markdown, the metadata, the
identity arguments, `max_words`, the clock value, and the recursive-splitter
oracle. -/
structure Ctx where
  md : List Char
  meta : Meta
  course_id : String
  slide_id : String
  s3_file_name : String
  max_words : Nat
  now : Nat
  recSplit : List Char → List (List Char)

/-- The chunk dictionary literal shared by both construction sites (their
fields are identical except for the arguments). -/
def mkChunk (ctx : Ctx) (text : List Char) (lvl : SplitLevel) (orig idx : Nat)
    (cs ce : Int) (sibCnt sibIdx : Nat) : Chunk :=
  { cid := ctx.course_id ++ ":" ++ ctx.slide_id ++ ":" ++ toString idx
    embedding := none
    text := text
    word_count := PyStr.countWords text
    char_count := text.length
    split_level := lvl
    original_chunk_id := orig
    chunk_index := idx
    page_start := (get_page_numbers cs ce ctx.meta.page_markers ctx.meta.total_pages).1
    page_end := (get_page_numbers cs ce ctx.meta.page_markers ctx.meta.total_pages).2
    headers_hierarchy := []
    headers_hierarchy_titles := []
    char_start_pos := cs
    char_end_pos := ce
    course_id := ctx.course_id
    slide_id := ctx.slide_id
    s3_file_name := ctx.s3_file_name
    total_pages := ctx.meta.total_pages
    timestamp := ctx.now
    sentence_sibling_count := sibCnt
    sentence_sibling_index := sibIdx
    is_header := false
    header_level := none
    header_text := none }

/-- First pass over the markdown-splitter output: thread `char_position`
(`find` from it, fall back to it on `-1`), emit small chunks as
`split_level="markdown"` with the running `len(processed_chunks)` index, and
queue oversized ones as `(original id, text, chunk_start)`. -/
def phase1 (ctx : Ctx) : List (List Char) → Nat → Int → Nat →
    List Chunk × List (Nat × List Char × Int) × Nat
  | [], _, _, nproc => ([], [], nproc)
  | d :: ds, i, cp, nproc =>
    let wc := PyStr.countWords d
    let f := PyStr.pyFind ctx.md d cp
    let cs := if f = -1 then cp else f
    let ce := cs + (d.length : Int)
    if wc ≤ ctx.max_words then
      let c := mkChunk ctx d .markdown i nproc cs ce 1 0
      let rest := phase1 ctx ds (i + 1) ce (nproc + 1)
      (c :: rest.1, rest.2.1, rest.2.2)
    else
      let rest := phase1 ctx ds (i + 1) ce nproc
      (rest.1, (i, d, cs) :: rest.2.1, rest.2.2)

/-- Sub-chunk loop of the recursive pass for one oversized chunk:
`chunk_start = parent_start + text.find(sub_text, local_pos)` (the `-1` of a
failed `find` is added as-is), `local_pos = chunk_end - parent_start`, one
`split_level="recursive"` chunk per piece with shared `original_chunk_id`,
`sentence_sibling_count = len(sub_docs)` and running sibling index. -/
def buildGroup (ctx : Ctx) (orig : Nat) (t : List Char) (pstart : Int) (total : Nat) :
    List (List Char) → Int → Nat → Nat → List Chunk × Nat
  | [], _, _, nproc => ([], nproc)
  | s :: ss, localPos, sibIdx, nproc =>
    let f := PyStr.pyFind t s localPos
    let cs := pstart + f
    let ce := cs + (s.length : Int)
    let c := mkChunk ctx s .recursive orig nproc cs ce total sibIdx
    let rest := buildGroup ctx orig t pstart total ss (ce - pstart) (sibIdx + 1) (nproc + 1)
    (c :: rest.1, rest.2)

/-- Second pass: split every queued oversized chunk with the recursive
splitter and append its group. -/
def phase2 (ctx : Ctx) : List (Nat × List Char × Int) → Nat → List Chunk
  | [], _ => []
  | e :: rest, nproc =>
    let subs := ctx.recSplit e.2.1
    let g := buildGroup ctx e.1 e.2.1 e.2.2 subs.length subs 0 0 nproc
    g.1 ++ phase2 ctx rest g.2

/-- The chunk list before the final sort: markdown-level chunks first (in
document order), then the recursive groups (in document order), exactly as
the two appends produce it. -/
def preSort (ctx : Ctx) (docs : List (List Char)) : List Chunk :=
  let p := phase1 ctx docs 0 0 0
  p.1 ++ phase2 ctx p.2.1 p.2.2

/-- The renumbering loop after the sort: dense `chunk_index` and the stable
`"{course}:{slide}:{index}"` id. -/
def reindex (ctx : Ctx) : List Chunk → Nat → List Chunk
  | [], _ => []
  | c :: cs, i =>
    { c with cid := ctx.course_id ++ ":" ++ ctx.slide_id ++ ":" ++ toString i,
             chunk_index := i } :: reindex ctx cs (i + 1)

/-- `extract_header_text` (regex `^#+\s*(.+)$` followed by `.strip()`, with
the unmatched case falling back to `header_line.strip()`): drop the leading
`#` run; an empty remainder yields `"#"` (for `"#"` via the fallback, for
longer runs because the regex backtracks one `#` into the group), any other
remainder is stripped. -/
def extractHeaderText (line : List Char) : List Char :=
  let rest := line.dropWhile (fun c => c = '#')
  if rest.isEmpty then ['#'] else PyStr.pyStrip rest

/-- Header information recorded per chunk by
`build_header_hierarchy_with_titles`. -/
structure HInfo where
  level : Option Nat
  parent_indices : List Nat
  parent_titles : List (List Char)
  is_header : Bool
  header_text : Option (List Char)
  deriving DecidableEq, Repr

/-- The tracked latest header per level 1..6 (position `k` holds level
`k+1`): clear every level above `level`, set `level` itself. -/
def setHeader (cur : List (Option (Nat × List Char))) (level : Nat) (v : Nat × List Char) :
    List (Option (Nat × List Char)) :=
  (List.range 6).map fun k =>
    if k + 1 < level then cur.getD k none
    else if k + 1 = level then some v
    else none

/-- Collect the set ancestors strictly below `level` (pass `7` to collect
all six levels), in level order, as the index and title lists. -/
def collectBelow (cur : List (Option (Nat × List Char))) (level : Nat) :
    List Nat × List (List Char) :=
  let entries := (List.range 6).filterMap fun k =>
    if k + 1 < level then cur.getD k none else none
  (entries.map (·.1), entries.map (·.2))

/-- The title string `"H{level}^" + header_text`. -/
def headerTitle (level : Nat) (ht : List Char) : List Char :=
  'H' :: (toString level).toList ++ ('^' :: ht)

/-- One step of `build_header_hierarchy_with_titles`: detect a header by the
stripped content's first character and the `#` run of its stripped first
line; a header of level 1..6 updates the tracked state and records its
ancestors (levels strictly below its own), anything else records the full
current ancestry. -/
def headerStep (cur : List (Option (Nat × List Char))) (c : Chunk) :
    HInfo × List (Option (Nat × List Char)) :=
  let content := PyStr.pyStrip c.text
  let startsHash : Bool := match content with | c0 :: _ => decide (c0 = '#') | [] => false
  if startsHash then
    let first_line := PyStr.pyStrip (content.takeWhile (fun ch => ch ≠ '\n'))
    let level := (first_line.takeWhile (fun ch => ch = '#')).length
    if 1 ≤ level ∧ level ≤ 6 then
      let htext := extractHeaderText first_line
      let cur2 := setHeader cur level (c.chunk_index, headerTitle level htext)
      let below := collectBelow cur2 level
      ({ level := some level, parent_indices := below.1, parent_titles := below.2,
         is_header := true, header_text := some htext }, cur2)
    else
      let below := collectBelow cur 7
      ({ level := none, parent_indices := below.1, parent_titles := below.2,
         is_header := false, header_text := none }, cur)
  else
    let below := collectBelow cur 7
    ({ level := none, parent_indices := below.1, parent_titles := below.2,
       is_header := false, header_text := none }, cur)

/-- The forward pass of `build_header_hierarchy_with_titles` (the Python
builds a dict keyed by the — at this point dense and distinct —
`chunk_index` and looks each chunk up again; threading the scan and pairing
positionally is the same map). -/
def headerScan (cur : List (Option (Nat × List Char))) : List Chunk → List HInfo
  | [] => []
  | c :: cs =>
    let st := headerStep cur c
    st.1 :: headerScan st.2 cs

/-- The per-chunk update loop after the hierarchy build: always install the
ancestor lists; on a header chunk set `is_header`, and set `header_level` /
`header_text` only when truthy (a level is 1..6 hence always set when
present; an empty header text is falsy and stays absent). -/
def applyHeaderInfo (c : Chunk) (info : HInfo) : Chunk :=
  let c1 := { c with headers_hierarchy := info.parent_indices,
                     headers_hierarchy_titles := info.parent_titles }
  if info.is_header then
    { c1 with
      is_header := true
      header_level := match info.level with
        | some l => if l ≠ 0 then some l else none
        | none => none
      header_text := match info.header_text with
        | some ht => if ht.isEmpty then none else some ht
        | none => none }
  else c1

/-- Hierarchy pass over the sorted, renumbered chunks. -/
def headerUpdate (chunks : List Chunk) : List Chunk :=
  List.zipWith applyHeaderInfo chunks (headerScan (List.replicate 6 none) chunks)

/-- `process_chunks_langchain` after the splitter call: size-gate /
recursive-split passes, stable sort by `char_start_pos`, renumbering,
sibling validation (whose only effect is logging — see
`validate_sibling_contiguity` below; it cannot alter or reject the list),
and the header-hierarchy pass. -/
def process_chunks_langchain (ctx : Ctx) (docs : List (List Char)) : List Chunk :=
  headerUpdate (reindex ctx
    (PyStr.stableSortByKey (fun c => c.char_start_pos) (preSort ctx docs)) 0)

/-- The list positions (equivalently, after renumbering, the chunk indices)
of the chunks sharing one `original_chunk_id`, with the chunks, in list
order — the groups `validate_sibling_contiguity` inspects. -/
def groupPositions (chunks : List Chunk) (o : Nat) : List (Nat × Chunk) :=
  chunks.enum.filter (fun p => p.2.original_chunk_id = o)

/-- Non-contiguity check of one group: some adjacent pair of list positions
differs by more than one (the Python sorts the group by position first — the
positions come from an in-order scan, so they are already ascending). -/
def contigFail (g : List (Nat × Chunk)) : Bool :=
  (g.zip g.tail).any (fun q => q.2.1 ≠ q.1.1 + 1)

/-- Wrong-sibling-index check of one group: the `k`-th member's
`sentence_sibling_index` differs from `k`. -/
def sibFail (g : List (Nat × Chunk)) : Bool :=
  g.enum.any (fun q => q.2.2.sentence_sibling_index ≠ q.1)

/-- The distinct `original_chunk_id`s in first-occurrence order (the
iteration order of the Python `defaultdict`). -/
def origIdsInOrder (chunks : List Chunk) : List Nat :=
  chunks.foldl (fun acc c =>
    if acc.contains c.original_chunk_id then acc else acc ++ [c.original_chunk_id]) []

/-- `validate_sibling_contiguity`, reduced to its observable outcome: the
Python function prints warnings and returns `None`; `true` here is
`issues_found` — some multi-member group is non-contiguous or has wrong
sibling indices.  `process_chunks_langchain` calls it purely for the log. -/
def validate_sibling_contiguity (chunks : List Chunk) : Bool :=
  (origIdsInOrder chunks).any (fun o =>
    let g := groupPositions chunks o
    if g.length > 1 then contigFail g || sibFail g else false)

/-- The `original_chunk_id`s named in "Non-contiguous siblings" warnings. -/
def contigOffenders (chunks : List Chunk) : List Nat :=
  (origIdsInOrder chunks).filter (fun o =>
    let g := groupPositions chunks o
    decide (g.length > 1) && contigFail g)

end Chunking

namespace Chunking

/-- Fields of a chunk untouched by renumbering (`cid`, `chunk_index`) and by
the header pass (hierarchy lists, header attributes). -/
def stableFields (c : Chunk) :
    List Char × Nat × Nat × SplitLevel × Nat × Int × Int × Int × Int × Int × Nat × Nat × Nat :=
  (c.text, c.word_count, c.char_count, c.split_level, c.original_chunk_id,
   c.page_start, c.page_end, c.char_start_pos, c.char_end_pos, c.total_pages,
   c.timestamp, c.sentence_sibling_count, c.sentence_sibling_index)

theorem stableFields_applyHeaderInfo (c : Chunk) (info : HInfo) :
    stableFields (applyHeaderInfo c info) = stableFields c := by
  rw [applyHeaderInfo]
  split <;> rfl

theorem of_mem_zipWith {α β γ : Type} (f : α → β → γ) :
    ∀ (l₁ : List α) (l₂ : List β) (x : γ), x ∈ List.zipWith f l₁ l₂ →
      ∃ a ∈ l₁, ∃ b ∈ l₂, x = f a b := by
  intro l₁
  induction l₁ with
  | nil => intro l₂ x hx; simp at hx
  | cons a as ih =>
    intro l₂ x hx
    cases l₂ with
    | nil => simp at hx
    | cons b bs =>
      rcases List.mem_cons.mp hx with rfl | hx
      · exact ⟨a, List.mem_cons_self a as, b, List.mem_cons_self b bs, rfl⟩
      · rcases ih bs x hx with ⟨a2, ha2, b2, hb2, rfl⟩
        exact ⟨a2, List.mem_cons_of_mem a ha2, b2, List.mem_cons_of_mem b hb2, rfl⟩

theorem of_mem_headerUpdate (l : List Chunk) (x : Chunk) (hx : x ∈ headerUpdate l) :
    ∃ c ∈ l, stableFields x = stableFields c := by
  rcases of_mem_zipWith applyHeaderInfo l _ x hx with ⟨c, hc, info, _, rfl⟩
  exact ⟨c, hc, stableFields_applyHeaderInfo c info⟩

theorem of_mem_reindex (ctx : Ctx) : ∀ (l : List Chunk) (i : Nat) (x : Chunk),
    x ∈ reindex ctx l i → ∃ c ∈ l, stableFields x = stableFields c := by
  intro l
  induction l with
  | nil => intro i x hx; simp [reindex] at hx
  | cons c cs ih =>
    intro i x hx
    rcases List.mem_cons.mp hx with rfl | hx
    · exact ⟨c, List.mem_cons_self c cs, rfl⟩
    · rcases ih (i + 1) x hx with ⟨c2, hc2, hs⟩
      exact ⟨c2, List.mem_cons_of_mem c hc2, hs⟩

/-- Every chunk of the final output agrees, on the renumbering- and
header-invariant fields, with a chunk of the pre-sort list. -/
theorem of_mem_process (ctx : Ctx) (docs : List (List Char)) (x : Chunk)
    (hx : x ∈ process_chunks_langchain ctx docs) :
    ∃ c ∈ preSort ctx docs, stableFields x = stableFields c := by
  rcases of_mem_headerUpdate _ x hx with ⟨c1, hc1, hs1⟩
  rcases of_mem_reindex ctx _ 0 c1 hc1 with ⟨c2, hc2, hs2⟩
  have hc3 := (PyStr.stableSortByKey_perm (fun c => c.char_start_pos) (preSort ctx docs)).mem_iff.mp hc2
  exact ⟨c2, hc3, hs1.trans hs2⟩

theorem mem_phase1_cases (ctx : Ctx) : ∀ (ds : List (List Char)) (i : Nat) (cp : Int)
    (nproc : Nat) (x : Chunk), x ∈ (phase1 ctx ds i cp nproc).1 →
    ∃ (d : List Char) (o idx : Nat) (cs ce : Int),
      d ∈ ds ∧ x = mkChunk ctx d .markdown o idx cs ce 1 0 := by
  intro ds
  induction ds with
  | nil => intro i cp nproc x hx; simp [phase1] at hx
  | cons d ds ih =>
    intro i cp nproc x hx
    rw [phase1] at hx
    by_cases hwc : PyStr.countWords d ≤ ctx.max_words
    · rw [if_pos hwc] at hx
      rcases List.mem_cons.mp hx with rfl | hx
      · exact ⟨d, i, nproc, _, _, List.mem_cons_self d ds, rfl⟩
      · rcases ih (i + 1) _ (nproc + 1) x hx with ⟨d2, o, idx, cs, ce, hd2, hx2⟩
        exact ⟨d2, o, idx, cs, ce, List.mem_cons_of_mem d hd2, hx2⟩
    · rw [if_neg hwc] at hx
      rcases ih (i + 1) _ nproc x hx with ⟨d2, o, idx, cs, ce, hd2, hx2⟩
      exact ⟨d2, o, idx, cs, ce, List.mem_cons_of_mem d hd2, hx2⟩

theorem mem_buildGroup_cases (ctx : Ctx) (orig : Nat) (t : List Char) (pstart : Int)
    (total : Nat) : ∀ (subs : List (List Char)) (lp : Int) (sib nproc : Nat) (x : Chunk),
    x ∈ (buildGroup ctx orig t pstart total subs lp sib nproc).1 →
    ∃ (s : List Char) (idx : Nat) (cs ce : Int) (sibIdx : Nat),
      s ∈ subs ∧ x = mkChunk ctx s .recursive orig idx cs ce total sibIdx := by
  intro subs
  induction subs with
  | nil => intro lp sib nproc x hx; simp [buildGroup] at hx
  | cons s ss ih =>
    intro lp sib nproc x hx
    rw [buildGroup] at hx
    rcases List.mem_cons.mp hx with rfl | hx
    · exact ⟨s, nproc, _, _, sib, List.mem_cons_self s ss, rfl⟩
    · rcases ih _ (sib + 1) (nproc + 1) x hx with ⟨s2, idx, cs, ce, sibIdx, hs2, hx2⟩
      exact ⟨s2, idx, cs, ce, sibIdx, List.mem_cons_of_mem s hs2, hx2⟩

theorem mem_phase2_cases (ctx : Ctx) : ∀ (ng : List (Nat × List Char × Int)) (nproc : Nat)
    (x : Chunk), x ∈ phase2 ctx ng nproc →
    ∃ e ∈ ng, ∃ (s : List Char) (idx : Nat) (cs ce : Int) (sibIdx : Nat),
      s ∈ ctx.recSplit e.2.1 ∧
      x = mkChunk ctx s .recursive e.1 idx cs ce (ctx.recSplit e.2.1).length sibIdx := by
  intro ng
  induction ng with
  | nil => intro nproc x hx; simp [phase2] at hx
  | cons e rest ih =>
    intro nproc x hx
    rw [phase2] at hx
    rcases List.mem_append.mp hx with hx | hx
    · rcases mem_buildGroup_cases ctx e.1 e.2.1 e.2.2 _ _ _ _ _ x hx with
        ⟨s, idx, cs, ce, sibIdx, hs, hx2⟩
      exact ⟨e, List.mem_cons_self e rest, s, idx, cs, ce, sibIdx, hs, hx2⟩
    · rcases ih _ x hx with ⟨e2, he2, rest2⟩
      exact ⟨e2, List.mem_cons_of_mem e he2, rest2⟩

end Chunking

/-- The recursive splitter's actual output for the counterexample input: on
`"a a a a a a a"` with character budget `6 * max_words = 12`, the splitter
splits at spaces and greedily merges into `"a a a a a a"` (11 characters
after stripping) and `"a"`, both within the character budget. -/
def c4Split : List Char → List (List Char) :=
  fun t => if t = "a a a a a a a".toList then ["a a a a a a".toList, "a".toList] else []

/-- Chunking context of the counterexample: a one-page markdown of seven
one-letter words with `max_words = 2`.  The single markdown chunk counts 7
words, exceeds `max_words` and is recursively split by character budget. -/
def c4Ctx : Chunking.Ctx :=
  { md := "a a a a a a a".toList
    meta := { total_pages := 1, page_markers := [(0, 1)] }
    course_id := "C", slide_id := "S", s3_file_name := "a.pdf"
    max_words := 2, now := 0
    recSplit := c4Split }

/-- The markdown-splitter output for that markdown. -/
def c4Docs : List (List Char) := ["a a a a a a a".toList]

/-- C4 (counterexample): the claim fails as stated.  The recursive splitter
bounds characters (`max_words × 6`), not words, so on a document of
one-letter words the first chunk it returns has `split_level = "recursive"`
and 6 whitespace-separated words while `max_words = 2`. -/
theorem c4_recursive_word_bound_counterexample :
    (Chunking.process_chunks_langchain c4Ctx c4Docs).map
      (fun c => (c.split_level, c.word_count)) =
      [(Chunking.SplitLevel.recursive, 6), (Chunking.SplitLevel.recursive, 1)] ∧
    c4Ctx.max_words = 2 ∧ ¬ (6 ≤ 2) := by
  refine ⟨?_, rfl, by decide⟩
  rfl

/-- C4 (amended): what the code enforces is the character budget — whenever the
recursive splitter keeps every piece within `max_words × 6` characters (its chunk
size), every chunk returned with `split_level = "recursive"` has
`char_count ≤ max_words × 6`; its word count is unconstrained and can exceed
`max_words`. -/
theorem c4_recursive_char_budget_amended (ctx : Chunking.Ctx) (docs : List (List Char))
    (hrec : ∀ t : List Char, ∀ s ∈ ctx.recSplit t, s.length ≤ 6 * ctx.max_words) :
    ∀ c ∈ Chunking.process_chunks_langchain ctx docs,
      c.split_level = Chunking.SplitLevel.recursive → c.char_count ≤ 6 * ctx.max_words := by
  intro c hc hlvl
  rcases Chunking.of_mem_process ctx docs c hc with ⟨c2, hc2, hs⟩
  have hcc : c.char_count = c2.char_count := congrArg (fun q => q.2.2.1) hs
  have hsl : c.split_level = c2.split_level := congrArg (fun q => q.2.2.2.1) hs
  rw [Chunking.preSort] at hc2
  rcases List.mem_append.mp hc2 with hmem | hmem
  · rcases Chunking.mem_phase1_cases ctx docs 0 0 0 c2 hmem with ⟨d, o, idx, cs, ce, _, rfl⟩
    rw [hsl] at hlvl
    exact absurd hlvl (by simp [Chunking.mkChunk])
  · rcases Chunking.mem_phase2_cases ctx _ _ c2 hmem with
      ⟨e, _, s, idx, cs, ce, sibIdx, hsub, rfl⟩
    rw [hcc]
    show s.length ≤ 6 * ctx.max_words
    exact hrec e.2.1 s hsub

/-- C4 (witness): the amended theorem applied to the concrete context, whose
splitter output does respect the character budget (11 ≤ 12 and 1 ≤ 12). -/
theorem c4_recursive_char_budget_amended_witness :
    (∀ t : List Char, ∀ s ∈ c4Ctx.recSplit t, s.length ≤ 6 * c4Ctx.max_words) ∧
    (∀ c ∈ Chunking.process_chunks_langchain c4Ctx c4Docs,
      c.split_level = Chunking.SplitLevel.recursive →
        c.char_count ≤ 6 * c4Ctx.max_words) := by
  have hA : ∀ t : List Char, ∀ s ∈ c4Ctx.recSplit t, s.length ≤ 6 * c4Ctx.max_words := by
    intro t s hs
    have hsp : c4Ctx.recSplit = c4Split := rfl
    rw [hsp, c4Split] at hs
    by_cases h : t = "a a a a a a a".toList
    · rw [if_pos h] at hs
      rcases List.mem_cons.mp hs with rfl | hs
      · decide
      · rcases List.mem_cons.mp hs with rfl | hs
        · decide
        · simp at hs
    · rw [if_neg h] at hs
      simp at hs
  exact ⟨hA, c4_recursive_char_budget_amended c4Ctx c4Docs hA⟩

/-- Adversarial recursive-splitter output used to exhibit the missing
invariant check: the pieces of `"b a"` are returned out of order, so the
positional scan fails on the second piece and its `-1` propagates into
`char_start_pos`. -/
def c3Split : List Char → List (List Char) :=
  fun t => if t = "b a".toList then ["a".toList, "b".toList] else []

/-- Chunking context of the C3 counterexample. -/
def c3Ctx : Chunking.Ctx :=
  { md := "b a".toList
    meta := { total_pages := 1, page_markers := [(0, 1)] }
    course_id := "C", slide_id := "S", s3_file_name := "a.pdf"
    max_words := 1, now := 0
    recSplit := c3Split }

/-- The markdown-splitter output for that markdown. -/
def c3Docs : List (List Char) := ["b a".toList]

/-- C3 (counterexample): the claim fails as stated.  On this input the built
chunk list violates the sibling invariant — after the sort the two siblings
of `original_chunk_id = 0` carry `sentence_sibling_index` 1 then 0 —
`validate_sibling_contiguity` flags it (`issues_found`), and
`process_chunks_langchain` still returns the invalid list: no
`ChunkerInvariantError` exists anywhere in the code and nothing is raised. -/
theorem c3_invariant_error_counterexample :
    Chunking.validate_sibling_contiguity (Chunking.process_chunks_langchain c3Ctx c3Docs) = true ∧
    (Chunking.process_chunks_langchain c3Ctx c3Docs).map
      (fun c => (c.chunk_index, c.original_chunk_id, c.sentence_sibling_index)) =
      [(0, 0, 1), (1, 0, 0)] := by
  constructor
  · rfl
  · rfl

namespace Chunking

theorem mem_origIdsInOrder_aux : ∀ (cs : List Chunk) (acc : List Nat) (o : Nat),
    o ∈ cs.foldl (fun acc c =>
      if acc.contains c.original_chunk_id then acc else acc ++ [c.original_chunk_id]) acc ↔
    o ∈ acc ∨ ∃ c ∈ cs, c.original_chunk_id = o := by
  intro cs
  induction cs with
  | nil => intro acc o; simp
  | cons c cs ih =>
    intro acc o
    show o ∈ cs.foldl _ (if acc.contains c.original_chunk_id then acc
      else acc ++ [c.original_chunk_id]) ↔ _
    rw [ih]
    by_cases hin : acc.contains c.original_chunk_id
    · rw [if_pos hin]
      have hmem : c.original_chunk_id ∈ acc := List.mem_of_elem_eq_true hin
      constructor
      · rintro (h | ⟨c2, hc2, rfl⟩)
        · exact Or.inl h
        · exact Or.inr ⟨c2, List.mem_cons_of_mem c hc2, rfl⟩
      · rintro (h | ⟨c2, hc2, rfl⟩)
        · exact Or.inl h
        · rcases List.mem_cons.mp hc2 with rfl | hc2
          · exact Or.inl hmem
          · exact Or.inr ⟨c2, hc2, rfl⟩
    · rw [if_neg hin]
      constructor
      · rintro (h | h)
        · rcases List.mem_append.mp h with h | h
          · exact Or.inl h
          · rcases List.mem_singleton.mp h with rfl
            exact Or.inr ⟨c, List.mem_cons_self c cs, rfl⟩
        · rcases h with ⟨c2, hc2, rfl⟩
          exact Or.inr ⟨c2, List.mem_cons_of_mem c hc2, rfl⟩
      · rintro (h | ⟨c2, hc2, rfl⟩)
        · exact Or.inl (List.mem_append.mpr (Or.inl h))
        · rcases List.mem_cons.mp hc2 with rfl | hc2
          · exact Or.inl (List.mem_append.mpr (Or.inr (List.mem_singleton.mpr rfl)))
          · exact Or.inr ⟨c2, hc2, rfl⟩

theorem mem_origIdsInOrder (cs : List Chunk) (o : Nat) :
    o ∈ origIdsInOrder cs ↔ ∃ c ∈ cs, c.original_chunk_id = o := by
  rw [origIdsInOrder, mem_origIdsInOrder_aux]
  simp

end Chunking

/-- C3 (amended): the chunker never raises on a sibling-invariant violation — no
`ChunkerInvariantError` exists and `process_chunks_langchain` returns the chunk list
unconditionally (see the counterexample) — but `validate_sibling_contiguity` does
detect it for the log: `issues_found` is reported exactly when some
`original_chunk_id` with at least two chunks has a non-contiguous position range or
out-of-order sibling indices, and the non-contiguity warning names exactly the
offending `original_chunk_id`s. -/
theorem c3_validation_amended (cs : List Chunking.Chunk) :
    (Chunking.validate_sibling_contiguity cs = true ↔
      ∃ o, (∃ c ∈ cs, c.original_chunk_id = o) ∧
        1 < (Chunking.groupPositions cs o).length ∧
        (Chunking.contigFail (Chunking.groupPositions cs o) = true ∨
         Chunking.sibFail (Chunking.groupPositions cs o) = true)) ∧
    (∀ o : Nat, o ∈ Chunking.contigOffenders cs ↔
      (∃ c ∈ cs, c.original_chunk_id = o) ∧
      1 < (Chunking.groupPositions cs o).length ∧
      Chunking.contigFail (Chunking.groupPositions cs o) = true) := by
  constructor
  · rw [Chunking.validate_sibling_contiguity, List.any_eq_true]
    constructor
    · rintro ⟨o, ho, hp⟩
      by_cases hlen : (Chunking.groupPositions cs o).length > 1
      · rw [if_pos hlen] at hp
        exact ⟨o, (Chunking.mem_origIdsInOrder cs o).mp ho, hlen, by simpa using hp⟩
      · rw [if_neg hlen] at hp
        exact absurd hp (by decide)
    · rintro ⟨o, hmem, hlen, hor⟩
      refine ⟨o, (Chunking.mem_origIdsInOrder cs o).mpr hmem, ?_⟩
      rw [if_pos hlen]
      rcases hor with h | h <;> simp [h]
  · intro o
    rw [Chunking.contigOffenders, List.mem_filter, Bool.and_eq_true, decide_eq_true_eq,
      Chunking.mem_origIdsInOrder]

namespace Chunking

theorem startPageLoop_bounds (total : Int) : ∀ (l : List (Int × Int)) (cs acc : Int),
    (∀ p ∈ l, 1 ≤ p.2 ∧ p.2 ≤ total) → 1 ≤ acc → acc ≤ total →
    1 ≤ startPageLoop l cs acc ∧ startPageLoop l cs acc ≤ total := by
  intro l
  induction l with
  | nil => intro cs acc _ h1 h2; exact ⟨h1, h2⟩
  | cons p rest ih =>
    intro cs acc hl h1 h2
    rcases p with ⟨pos, pg⟩
    rw [startPageLoop]
    by_cases hcs : cs < pos
    · rw [if_pos hcs]
      exact ⟨h1, h2⟩
    · rw [if_neg hcs]
      have hp := hl (pos, pg) (List.mem_cons_self _ _)
      exact ih cs pg (fun q hq => hl q (List.mem_cons_of_mem _ hq)) hp.1 hp.2

theorem endPageLoop_upper (total : Int) : ∀ (l : List (Int × Int)) (ce acc : Int),
    (∀ p ∈ l, 1 ≤ p.2 ∧ p.2 ≤ total) → acc ≤ total →
    endPageLoop l ce acc ≤ total := by
  intro l
  induction l with
  | nil => intro ce acc _ h2; exact h2
  | cons p rest ih =>
    intro ce acc hl h2
    rcases p with ⟨pos, pg⟩
    rw [endPageLoop]
    have hp := hl (pos, pg) (List.mem_cons_self _ _)
    by_cases hce : ce ≤ pos
    · rw [if_pos hce]
      omega
    · rw [if_neg hce]
      exact ih ce pg (fun q hq => hl q (List.mem_cons_of_mem _ hq)) hp.2

/-- Page-range soundness of `get_page_numbers`: with marker pages inside
`[1, total_pages]` and at least one page, the result satisfies
`1 ≤ page_start ≤ page_end ≤ total_pages` for all character positions. -/
theorem get_page_numbers_ok (cs ce : Int) (markers : List (Int × Int)) (total : Int)
    (hm : ∀ p ∈ markers, 1 ≤ p.2 ∧ p.2 ≤ total) (ht : 1 ≤ total) :
    1 ≤ (get_page_numbers cs ce markers total).1 ∧
    (get_page_numbers cs ce markers total).1 ≤ (get_page_numbers cs ce markers total).2 ∧
    (get_page_numbers cs ce markers total).2 ≤ total := by
  rw [get_page_numbers]
  by_cases hmk : markers.isEmpty
  · rw [if_pos hmk]
    exact ⟨le_refl 1, le_refl 1, ht⟩
  · rw [if_neg hmk]
    have hsorted : ∀ p ∈ PyStr.stableSortByKey (fun p => p.1) markers, 1 ≤ p.2 ∧ p.2 ≤ total :=
      fun p hp => hm p ((PyStr.stableSortByKey_perm (fun p => p.1) markers).mem_iff.mp hp)
    have hps := startPageLoop_bounds total _ cs 1 hsorted (le_refl 1) ht
    have hpe := endPageLoop_upper total _ ce total hsorted (le_refl total)
    refine ⟨hps.1, le_max_left _ _, max_le hps.2 hpe⟩

/-- Both construction sites draw `page_start`, `page_end` and `total_pages`
straight from `get_page_numbers` and the metadata, so the invariant lifts to
every built chunk. -/
theorem mkChunk_pages_ok (ctx : Ctx) (text : List Char) (lvl : SplitLevel)
    (orig idx : Nat) (cs ce : Int) (a b : Nat)
    (hm : ∀ p ∈ ctx.meta.page_markers, 1 ≤ p.2 ∧ p.2 ≤ ctx.meta.total_pages)
    (ht : 1 ≤ ctx.meta.total_pages) :
    1 ≤ (mkChunk ctx text lvl orig idx cs ce a b).page_start ∧
    (mkChunk ctx text lvl orig idx cs ce a b).page_start ≤
      (mkChunk ctx text lvl orig idx cs ce a b).page_end ∧
    (mkChunk ctx text lvl orig idx cs ce a b).page_end ≤
      (mkChunk ctx text lvl orig idx cs ce a b).total_pages :=
  get_page_numbers_ok cs ce ctx.meta.page_markers ctx.meta.total_pages hm ht

end Chunking

/-- C8: whenever every entry of the `page_markers` mapping carries a page in
`[1, total_pages]` and the document has at least one page — true of the mapping
`convert_pdf_to_markdown` derives, which assigns pages `1..n` over the `n ≥ 1` page
chunks, and trivially of the empty mapping — every chunk returned by the chunker
satisfies `1 ≤ page_start ≤ page_end ≤ total_pages`, for all character positions
including those beyond the last marker. -/
theorem c8_page_range_invariant (ctx : Chunking.Ctx) (docs : List (List Char))
    (hm : ∀ p ∈ ctx.meta.page_markers, 1 ≤ p.2 ∧ p.2 ≤ ctx.meta.total_pages)
    (ht : 1 ≤ ctx.meta.total_pages) :
    ∀ c ∈ Chunking.process_chunks_langchain ctx docs,
      1 ≤ c.page_start ∧ c.page_start ≤ c.page_end ∧ c.page_end ≤ c.total_pages := by
  intro c hc
  rcases Chunking.of_mem_process ctx docs c hc with ⟨c2, hc2, hs⟩
  have hps : c.page_start = c2.page_start := congrArg (fun q => q.2.2.2.2.2.1) hs
  have hpe : c.page_end = c2.page_end := congrArg (fun q => q.2.2.2.2.2.2.1) hs
  have htp : c.total_pages = c2.total_pages := congrArg (fun q => q.2.2.2.2.2.2.2.2.2.1) hs
  rw [hps, hpe, htp]
  rw [Chunking.preSort] at hc2
  rcases List.mem_append.mp hc2 with hmem | hmem
  · rcases Chunking.mem_phase1_cases ctx docs 0 0 0 c2 hmem with ⟨d, o, idx, cs, ce, _, rfl⟩
    exact Chunking.mkChunk_pages_ok ctx d .markdown o idx cs ce 1 0 hm ht
  · rcases Chunking.mem_phase2_cases ctx _ _ c2 hmem with
      ⟨e, _, s, idx, cs, ce, sibIdx, _, rfl⟩
    exact Chunking.mkChunk_pages_ok ctx s .recursive e.1 idx cs ce _ sibIdx hm ht

/-- C8 (witness): the invariant theorem applied to the concrete one-page context
`c4Ctx`, hypotheses discharged by evaluation. -/
theorem c8_page_range_invariant_witness :
    (∀ p ∈ c4Ctx.meta.page_markers, 1 ≤ p.2 ∧ p.2 ≤ c4Ctx.meta.total_pages) ∧
    (1 ≤ c4Ctx.meta.total_pages) ∧
    (∀ c ∈ Chunking.process_chunks_langchain c4Ctx c4Docs,
      1 ≤ c.page_start ∧ c.page_start ≤ c.page_end ∧ c.page_end ≤ c.total_pages) := by
  have hm : ∀ p ∈ c4Ctx.meta.page_markers, 1 ≤ p.2 ∧ p.2 ≤ c4Ctx.meta.total_pages := by
    decide
  exact ⟨hm, by decide, c8_page_range_invariant c4Ctx c4Docs hm (by decide)⟩

namespace Chunking

/-- Overwrite a chunk's timestamp (the only field fed by the clock). -/
def setTs (n : Nat) (c : Chunk) : Chunk := { c with timestamp := n }

/-- Erase a chunk's timestamp. -/
def eraseTs (c : Chunk) : Chunk := { c with timestamp := 0 }

/-- The same run inputs with the clock pinned to zero. -/
def zeroNow (ctx : Ctx) : Ctx := { ctx with now := 0 }

theorem mkChunk_zeroNow (ctx : Ctx) (t : List Char) (lvl : SplitLevel) (o i : Nat)
    (cs ce : Int) (a b : Nat) :
    mkChunk ctx t lvl o i cs ce a b = setTs ctx.now (mkChunk (zeroNow ctx) t lvl o i cs ce a b) := rfl

theorem phase1_zeroNow (ctx : Ctx) : ∀ (ds : List (List Char)) (i : Nat) (cp : Int) (k : Nat),
    phase1 ctx ds i cp k =
      (((phase1 (zeroNow ctx) ds i cp k).1).map (setTs ctx.now),
       (phase1 (zeroNow ctx) ds i cp k).2) := by
  intro ds
  induction ds with
  | nil => intro i cp k; rfl
  | cons d ds ih =>
    intro i cp k
    show (if PyStr.countWords d ≤ ctx.max_words then _ else _) = _
    by_cases h : PyStr.countWords d ≤ ctx.max_words
    · rw [if_pos h]
      have hz : phase1 (zeroNow ctx) (d :: ds) i cp k =
          (if PyStr.countWords d ≤ ctx.max_words then
            (mkChunk (zeroNow ctx) d .markdown i k
                (if PyStr.pyFind ctx.md d cp = -1 then cp else PyStr.pyFind ctx.md d cp)
                ((if PyStr.pyFind ctx.md d cp = -1 then cp else PyStr.pyFind ctx.md d cp) +
                  (d.length : Int)) 1 0 ::
              (phase1 (zeroNow ctx) ds (i + 1)
                ((if PyStr.pyFind ctx.md d cp = -1 then cp else PyStr.pyFind ctx.md d cp) +
                  (d.length : Int)) (k + 1)).1,
             (phase1 (zeroNow ctx) ds (i + 1)
                ((if PyStr.pyFind ctx.md d cp = -1 then cp else PyStr.pyFind ctx.md d cp) +
                  (d.length : Int)) (k + 1)).2.1,
             (phase1 (zeroNow ctx) ds (i + 1)
                ((if PyStr.pyFind ctx.md d cp = -1 then cp else PyStr.pyFind ctx.md d cp) +
                  (d.length : Int)) (k + 1)).2.2)
          else _) := rfl
      rw [hz, if_pos h]
      rw [ih]
      rw [mkChunk_zeroNow]
      rfl
    · rw [if_neg h]
      have hz : phase1 (zeroNow ctx) (d :: ds) i cp k =
          (if PyStr.countWords d ≤ ctx.max_words then _ else
            ((phase1 (zeroNow ctx) ds (i + 1)
                ((if PyStr.pyFind ctx.md d cp = -1 then cp else PyStr.pyFind ctx.md d cp) +
                  (d.length : Int)) k).1,
             (i, d, (if PyStr.pyFind ctx.md d cp = -1 then cp else PyStr.pyFind ctx.md d cp)) ::
               (phase1 (zeroNow ctx) ds (i + 1)
                  ((if PyStr.pyFind ctx.md d cp = -1 then cp else PyStr.pyFind ctx.md d cp) +
                    (d.length : Int)) k).2.1,
             (phase1 (zeroNow ctx) ds (i + 1)
                ((if PyStr.pyFind ctx.md d cp = -1 then cp else PyStr.pyFind ctx.md d cp) +
                  (d.length : Int)) k).2.2)) := rfl
      rw [hz, if_neg h]
      rw [ih]

theorem buildGroup_zeroNow (ctx : Ctx) (orig : Nat) (t : List Char) (pstart : Int)
    (total : Nat) : ∀ (subs : List (List Char)) (lp : Int) (sib k : Nat),
    buildGroup ctx orig t pstart total subs lp sib k =
      (((buildGroup (zeroNow ctx) orig t pstart total subs lp sib k).1).map (setTs ctx.now),
       (buildGroup (zeroNow ctx) orig t pstart total subs lp sib k).2) := by
  intro subs
  induction subs with
  | nil => intro lp sib k; rfl
  | cons s ss ih =>
    intro lp sib k
    simp only [buildGroup]
    rw [ih]
    rw [mkChunk_zeroNow]
    rfl

theorem phase2_zeroNow (ctx : Ctx) : ∀ (ng : List (Nat × List Char × Int)) (k : Nat),
    phase2 ctx ng k = (phase2 (zeroNow ctx) ng k).map (setTs ctx.now) := by
  intro ng
  induction ng with
  | nil => intro k; rfl
  | cons e rest ih =>
    intro k
    simp only [phase2]
    rw [buildGroup_zeroNow]
    rw [List.map_append]
    show _ ++ phase2 ctx rest _ = _ ++ (phase2 (zeroNow ctx) rest _).map (setTs ctx.now)
    rw [ih]
    rfl

theorem preSort_zeroNow (ctx : Ctx) (docs : List (List Char)) :
    preSort ctx docs = (preSort (zeroNow ctx) docs).map (setTs ctx.now) := by
  rw [preSort, preSort, phase1_zeroNow, List.map_append]
  show _ ++ phase2 ctx _ _ = _
  rw [phase2_zeroNow]

theorem reindex_zeroNow (ctx : Ctx) : ∀ (l : List Chunk) (i : Nat),
    reindex ctx (l.map (setTs ctx.now)) i = (reindex (zeroNow ctx) l i).map (setTs ctx.now) := by
  intro l
  induction l with
  | nil => intro i; rfl
  | cons c cs ih =>
    intro i
    simp only [List.map_cons, reindex]
    rw [ih]
    rfl

theorem headerStep_setTs (cur : List (Option (Nat × List Char))) (n : Nat) (c : Chunk) :
    headerStep cur (setTs n c) = headerStep cur c := rfl

theorem headerScan_setTs (n : Nat) : ∀ (l : List Chunk) (cur : List (Option (Nat × List Char))),
    headerScan cur (l.map (setTs n)) = headerScan cur l := by
  intro l
  induction l with
  | nil => intro cur; rfl
  | cons c cs ih =>
    intro cur
    simp only [List.map_cons, headerScan]
    rw [headerStep_setTs]
    rw [ih]

theorem applyHeaderInfo_setTs (n : Nat) (c : Chunk) (info : HInfo) :
    applyHeaderInfo (setTs n c) info = setTs n (applyHeaderInfo c info) := by
  rw [applyHeaderInfo, applyHeaderInfo]
  split <;> rfl

theorem zipWith_apply_setTs (n : Nat) : ∀ (l : List Chunk) (infos : List HInfo),
    List.zipWith applyHeaderInfo (l.map (setTs n)) infos =
      (List.zipWith applyHeaderInfo l infos).map (setTs n) := by
  intro l
  induction l with
  | nil => intro infos; rfl
  | cons c cs ih =>
    intro infos
    cases infos with
    | nil => rfl
    | cons i is =>
      simp only [List.map_cons, List.zipWith_cons_cons]
      rw [applyHeaderInfo_setTs, ih]

theorem headerUpdate_setTs (n : Nat) (l : List Chunk) :
    headerUpdate (l.map (setTs n)) = (headerUpdate l).map (setTs n) := by
  rw [headerUpdate, headerUpdate, headerScan_setTs, zipWith_apply_setTs]

theorem process_zeroNow (ctx : Ctx) (docs : List (List Char)) :
    process_chunks_langchain ctx docs =
      (process_chunks_langchain (zeroNow ctx) docs).map (setTs ctx.now) := by
  rw [process_chunks_langchain, process_chunks_langchain, preSort_zeroNow]
  rw [← PyStr.stableSortByKey_map (fun c => c.char_start_pos) (fun c => c.char_start_pos)
    (setTs ctx.now) (fun c => rfl)]
  rw [reindex_zeroNow, headerUpdate_setTs]

theorem eraseTs_setTs (n : Nat) (c : Chunk) : eraseTs (setTs n c) = eraseTs c := rfl

end Chunking

/-- C10 counterexample inputs: a one-page, one-chunk markdown, run once with
the clock at 0 and once with the clock at 1; every other input field is the
same literal. -/
def c10Ctx (n : Nat) : Chunking.Ctx :=
  { md := "hello world".toList
    meta := { total_pages := 1, page_markers := [(0, 1)] }
    course_id := "C", slide_id := "S", s3_file_name := "a.pdf"
    max_words := 350, now := n
    recSplit := fun _ => [] }

/-- The markdown-splitter output for that markdown. -/
def c10Docs : List (List Char) := ["hello world".toList]

/-- C10 (counterexample): `chunk_pdf` is not a deterministic function of
(pdf bytes, course_id, slide_id, s3_file_name, max_words): each chunk's
`timestamp` field is `time.time()` read at chunk-construction time, so two
runs on identical inputs whose clocks differ produce chunk lists that are
not equal field for field.  The two contexts below agree on every input
(`zeroNow` erases only the clock) yet the outputs differ in `timestamp`. -/
theorem c10_determinism_counterexample :
    Chunking.zeroNow (c10Ctx 0) = Chunking.zeroNow (c10Ctx 1) ∧
    (Chunking.process_chunks_langchain (c10Ctx 0) c10Docs).map (fun c => c.timestamp) = [0] ∧
    (Chunking.process_chunks_langchain (c10Ctx 1) c10Docs).map (fun c => c.timestamp) = [1] ∧
    Chunking.process_chunks_langchain (c10Ctx 0) c10Docs ≠
      Chunking.process_chunks_langchain (c10Ctx 1) c10Docs := by
  refine ⟨rfl, rfl, rfl, fun h => ?_⟩
  have h2 : ([0] : List Nat) = [1] :=
    congrArg (List.map (fun c : Chunking.Chunk => c.timestamp)) h
  exact absurd h2 (by decide)

/-- C10 (amended): the chunker is deterministic in everything except the
wall-clock `timestamp` field: two runs on identical inputs produce chunk
lists equal field for field once `timestamp` is erased, and every chunk's
`timestamp` equals the run's clock reading. -/
theorem c10_determinism_amended (ctx₁ ctx₂ : Chunking.Ctx) (docs : List (List Char))
    (h : Chunking.zeroNow ctx₁ = Chunking.zeroNow ctx₂) :
    (Chunking.process_chunks_langchain ctx₁ docs).map Chunking.eraseTs =
      (Chunking.process_chunks_langchain ctx₂ docs).map Chunking.eraseTs ∧
    ∀ c ∈ Chunking.process_chunks_langchain ctx₁ docs, c.timestamp = ctx₁.now := by
  constructor
  · rw [Chunking.process_zeroNow ctx₁, Chunking.process_zeroNow ctx₂, h]
    rw [List.map_map, List.map_map]
    have hfe : (Chunking.eraseTs ∘ Chunking.setTs ctx₁.now) =
        (Chunking.eraseTs ∘ Chunking.setTs ctx₂.now) := funext fun c => rfl
    rw [hfe]
  · intro c hc
    rw [Chunking.process_zeroNow ctx₁] at hc
    obtain ⟨c0, _, hc0⟩ := List.mem_map.mp hc
    rw [← hc0]
    rfl

/-- C10 (witness for the amended theorem): concretely, the clock-0 and
clock-1 runs above agree after erasing timestamps, and the clock-0 run
stamps its chunk with 0. -/
theorem c10_determinism_amended_witness :
    Chunking.zeroNow (c10Ctx 0) = Chunking.zeroNow (c10Ctx 1) ∧
    ((Chunking.process_chunks_langchain (c10Ctx 0) c10Docs).map Chunking.eraseTs =
      (Chunking.process_chunks_langchain (c10Ctx 1) c10Docs).map Chunking.eraseTs ∧
    ∀ c ∈ Chunking.process_chunks_langchain (c10Ctx 0) c10Docs, c.timestamp = (c10Ctx 0).now) :=
  ⟨rfl, c10_determinism_amended (c10Ctx 0) (c10Ctx 1) c10Docs rfl⟩

namespace PyStr

/-- A successful `find` (result not `-1`) with a non-negative start returns a
position at or after the start with room for all of `sub` inside `s`. -/
theorem pyFind_spec (s sub : List Char) (start : Int) (hst : 0 ≤ start)
    (h : pyFind s sub start ≠ -1) :
    start ≤ pyFind s sub start ∧
      pyFind s sub start + (sub.length : Int) ≤ (s.length : Int) := by
  have hlt : ¬ start < 0 := not_lt.mpr hst
  simp only [pyFind, if_neg hlt] at h ⊢
  cases hEq : (List.range (s.length + 1 - start.toNat)).find?
      (fun k => sub.isPrefixOf (s.drop (start.toNat + k))) with
  | none => rw [hEq] at h; simp at h
  | some k =>
    show start ≤ ((start.toNat + k : Nat) : Int) ∧
      ((start.toNat + k : Nat) : Int) + (sub.length : Int) ≤ (s.length : Int)
    have hp0 := List.find?_some hEq
    have hp : sub.isPrefixOf (s.drop (start.toNat + k)) = true := hp0
    have hmem : k ∈ List.range (s.length + 1 - start.toNat) :=
      List.mem_of_find?_eq_some hEq
    have hrange : k < s.length + 1 - start.toNat := List.mem_range.mp hmem
    have hpre : sub <+: s.drop (start.toNat + k) := List.isPrefixOf_iff_prefix.mp hp
    have hlen : sub.length ≤ (s.drop (start.toNat + k)).length := hpre.length_le
    rw [List.length_drop] at hlen
    constructor <;> omega

end PyStr

namespace Chunking

/-- Success of the positional `find` scan that the recursive pass runs over
one oversized chunk's pieces: starting from local position `lp`, each piece
is found (no `-1`), the next search starting where the found occurrence
ends.  This is how the pieces actually sit in the parent text when the
splitter returns its substrings in order. -/
def groupScanOk (t : List Char) : List (List Char) → Int → Bool
  | [], _ => true
  | s :: ss, lp =>
    decide (PyStr.pyFind t s lp ≠ -1) &&
      groupScanOk t ss (PyStr.pyFind t s lp + (s.length : Int))

/-- The index bookkeeping of one recursive group, independent of where the
pieces are found: sibling indices run from `sib`, every chunk carries the
group's `original_chunk_id` and the shared sibling count. -/
theorem buildGroup_maps (ctx : Ctx) (orig : Nat) (t : List Char) (ps : Int)
    (total : Nat) : ∀ (subs : List (List Char)) (lp : Int) (sib np : Nat),
    ((buildGroup ctx orig t ps total subs lp sib np).1.map
        (fun c => c.sentence_sibling_index) = List.range' sib subs.length) ∧
    ((buildGroup ctx orig t ps total subs lp sib np).1.map
        (fun c => c.original_chunk_id) = List.replicate subs.length orig) ∧
    ((buildGroup ctx orig t ps total subs lp sib np).1.map
        (fun c => c.sentence_sibling_count) = List.replicate subs.length total) := by
  intro subs
  induction subs with
  | nil => intro lp sib np; exact ⟨rfl, rfl, rfl⟩
  | cons s ss ih =>
    intro lp sib np
    rw [buildGroup]
    rcases ih (ps + PyStr.pyFind t s lp + (s.length : Int) - ps) (sib + 1) (np + 1) with
      ⟨h1, h2, h3⟩
    exact ⟨congrArg (List.cons sib) h1, congrArg (List.cons orig) h2,
      congrArg (List.cons total) h3⟩

/-- The windows of one recursive group when the scan succeeds on non-empty
pieces: every chunk starts inside `[ps + lp, ps + |t|)` and the chunks are
strictly ordered both by sibling index and by start position. -/
theorem buildGroup_windows (ctx : Ctx) (orig : Nat) (t : List Char) (ps : Int)
    (total : Nat) : ∀ (subs : List (List Char)) (lp : Int) (sib np : Nat),
    0 ≤ lp → groupScanOk t subs lp = true → (∀ s ∈ subs, s ≠ []) →
    (∀ x ∈ (buildGroup ctx orig t ps total subs lp sib np).1,
        ps + lp ≤ x.char_start_pos ∧ x.char_start_pos + 1 ≤ ps + (t.length : Int)) ∧
    ((buildGroup ctx orig t ps total subs lp sib np).1.Pairwise
        (fun a b => a.sentence_sibling_index < b.sentence_sibling_index ∧
          a.char_start_pos < b.char_start_pos)) := by
  intro subs
  induction subs with
  | nil =>
    intro lp sib np _ _ _
    exact ⟨fun x hx => absurd hx (List.not_mem_nil x), List.Pairwise.nil⟩
  | cons s ss ih =>
    intro lp sib np hlp hscan hne
    rw [groupScanOk, Bool.and_eq_true, decide_eq_true_eq] at hscan
    obtain ⟨hfind, hscan'⟩ := hscan
    have hs : s ≠ [] := hne s (List.mem_cons_self s ss)
    have hslen : 1 ≤ s.length := List.length_pos.mpr hs
    have hspec := PyStr.pyFind_spec t s lp hlp hfind
    have harg : ps + PyStr.pyFind t s lp + (s.length : Int) - ps =
        PyStr.pyFind t s lp + (s.length : Int) := by ring
    have hlp' : (0 : Int) ≤ ps + PyStr.pyFind t s lp + (s.length : Int) - ps := by omega
    have hscan2 : groupScanOk t ss (ps + PyStr.pyFind t s lp + (s.length : Int) - ps) = true := by
      rw [harg]; exact hscan'
    have hrec := ih (ps + PyStr.pyFind t s lp + (s.length : Int) - ps) (sib + 1) (np + 1) hlp'
      hscan2 (fun x hx => hne x (List.mem_cons_of_mem s hx))
    rw [buildGroup]
    constructor
    · intro x hx
      rcases List.mem_cons.mp hx with rfl | hx
      · show ps + lp ≤ ps + PyStr.pyFind t s lp ∧
          ps + PyStr.pyFind t s lp + 1 ≤ ps + (t.length : Int)
        omega
      · rcases hrec.1 x hx with ⟨h1, h2⟩
        refine ⟨?_, h2⟩
        omega
    · refine List.pairwise_cons.mpr ⟨?_, hrec.2⟩
      intro x hx
      rcases hrec.1 x hx with ⟨h1, _⟩
      have hsib : x.sentence_sibling_index ∈
          (buildGroup ctx orig t ps total ss
            (ps + PyStr.pyFind t s lp + (s.length : Int) - ps) (sib + 1) (np + 1)).1.map
            (fun c => c.sentence_sibling_index) :=
        List.mem_map_of_mem _ hx
      rw [(buildGroup_maps ctx orig t ps total ss _ (sib + 1) (np + 1)).1] at hsib
      constructor
      · show sib < x.sentence_sibling_index
        have := List.mem_range'_1.mp hsib
        omega
      · show ps + PyStr.pyFind t s lp < x.char_start_pos
        omega

end Chunking

namespace Chunking

theorem mkChunk_orig (ctx : Ctx) (t : List Char) (lvl : SplitLevel) (o idx : Nat)
    (cs ce : Int) (a b : Nat) : (mkChunk ctx t lvl o idx cs ce a b).original_chunk_id = o := rfl

theorem mkChunk_cs (ctx : Ctx) (t : List Char) (lvl : SplitLevel) (o idx : Nat)
    (cs ce : Int) (a b : Nat) : (mkChunk ctx t lvl o idx cs ce a b).char_start_pos = cs := rfl

theorem mkChunk_ce (ctx : Ctx) (t : List Char) (lvl : SplitLevel) (o idx : Nat)
    (cs ce : Int) (a b : Nat) : (mkChunk ctx t lvl o idx cs ce a b).char_end_pos = ce := rfl

theorem mkChunk_text (ctx : Ctx) (t : List Char) (lvl : SplitLevel) (o idx : Nat)
    (cs ce : Int) (a b : Nat) : (mkChunk ctx t lvl o idx cs ce a b).text = t := rfl

theorem mkChunk_sibCnt (ctx : Ctx) (t : List Char) (lvl : SplitLevel) (o idx : Nat)
    (cs ce : Int) (a b : Nat) : (mkChunk ctx t lvl o idx cs ce a b).sentence_sibling_count = a := rfl

theorem mkChunk_sibIdx (ctx : Ctx) (t : List Char) (lvl : SplitLevel) (o idx : Nat)
    (cs ce : Int) (a b : Nat) : (mkChunk ctx t lvl o idx cs ce a b).sentence_sibling_index = b := rfl

/-- Unfolding equation for the markdown branch of the first pass, with the
start position abstracted. -/
theorem phase1_cons_pos (ctx : Ctx) (d : List Char) (ds : List (List Char)) (i : Nat)
    (cp : Int) (np : Nat) (cs : Int)
    (hcs : (if PyStr.pyFind ctx.md d cp = -1 then cp else PyStr.pyFind ctx.md d cp) = cs)
    (hwc : PyStr.countWords d ≤ ctx.max_words) :
    ((phase1 ctx (d :: ds) i cp np).1 =
      mkChunk ctx d .markdown i np cs (cs + (d.length : Int)) 1 0 ::
        (phase1 ctx ds (i + 1) (cs + (d.length : Int)) (np + 1)).1) ∧
    ((phase1 ctx (d :: ds) i cp np).2.1 =
      (phase1 ctx ds (i + 1) (cs + (d.length : Int)) (np + 1)).2.1) := by
  subst hcs
  refine ⟨?_, ?_⟩ <;> simp only [phase1, if_pos hwc]

/-- Unfolding equation for the oversized branch of the first pass. -/
theorem phase1_cons_neg (ctx : Ctx) (d : List Char) (ds : List (List Char)) (i : Nat)
    (cp : Int) (np : Nat) (cs : Int)
    (hcs : (if PyStr.pyFind ctx.md d cp = -1 then cp else PyStr.pyFind ctx.md d cp) = cs)
    (hwc : ¬ PyStr.countWords d ≤ ctx.max_words) :
    ((phase1 ctx (d :: ds) i cp np).1 =
      (phase1 ctx ds (i + 1) (cs + (d.length : Int)) np).1) ∧
    ((phase1 ctx (d :: ds) i cp np).2.1 =
      (i, d, cs) :: (phase1 ctx ds (i + 1) (cs + (d.length : Int)) np).2.1) := by
  subst hcs
  refine ⟨?_, ?_⟩ <;> simp only [phase1, if_neg hwc]

/-- Invariants of the first pass under a non-negative running position and
non-empty pieces: per-chunk and per-queue-entry index and window bounds,
strict document ordering of the emitted chunks and of the queue, and the
disjointness of the two (a document index is never both). -/
theorem phase1_facts (ctx : Ctx) : ∀ (ds : List (List Char)) (i : Nat) (cp : Int) (np : Nat),
    0 ≤ cp → (∀ d ∈ ds, d ≠ []) →
    (∀ x ∈ (phase1 ctx ds i cp np).1,
        i ≤ x.original_chunk_id ∧ x.original_chunk_id < i + ds.length ∧
        cp ≤ x.char_start_pos ∧
        x.char_end_pos = x.char_start_pos + (x.text.length : Int) ∧
        x.text ≠ [] ∧
        x.sentence_sibling_index = 0 ∧ x.sentence_sibling_count = 1) ∧
    (∀ e ∈ (phase1 ctx ds i cp np).2.1,
        i ≤ e.1 ∧ e.1 < i + ds.length ∧ cp ≤ e.2.2 ∧ e.2.1 ≠ []) ∧
    ((phase1 ctx ds i cp np).1.Pairwise
        (fun x y => x.original_chunk_id < y.original_chunk_id ∧
          x.char_end_pos ≤ y.char_start_pos)) ∧
    ((phase1 ctx ds i cp np).2.1.Pairwise
        (fun e f => e.1 < f.1 ∧ e.2.2 + (e.2.1.length : Int) ≤ f.2.2)) ∧
    (∀ x ∈ (phase1 ctx ds i cp np).1, ∀ e ∈ (phase1 ctx ds i cp np).2.1,
        (x.original_chunk_id < e.1 ∧ x.char_end_pos ≤ e.2.2) ∨
        (e.1 < x.original_chunk_id ∧ e.2.2 + (e.2.1.length : Int) ≤ x.char_start_pos)) := by
  intro ds
  induction ds with
  | nil =>
    intro i cp np _ _
    exact ⟨fun x hx => absurd hx (List.not_mem_nil x),
      fun e he => absurd he (List.not_mem_nil e),
      List.Pairwise.nil, List.Pairwise.nil,
      fun x hx => absurd hx (List.not_mem_nil x)⟩
  | cons d ds ih =>
    intro i cp np hcp hne
    have hd : d ≠ [] := hne d (List.mem_cons_self d ds)
    have hdl : 1 ≤ d.length := List.length_pos.mpr hd
    obtain ⟨cs, hcs, hcpcs⟩ : ∃ cs,
        (if PyStr.pyFind ctx.md d cp = -1 then cp else PyStr.pyFind ctx.md d cp) = cs ∧
          cp ≤ cs := by
      refine ⟨_, rfl, ?_⟩
      by_cases hf : PyStr.pyFind ctx.md d cp = -1
      · rw [if_pos hf]
      · rw [if_neg hf]
        exact (PyStr.pyFind_spec ctx.md d cp hcp hf).1
    have hce0 : (0 : Int) ≤ cs + (d.length : Int) := by omega
    have hnetail : ∀ x ∈ ds, x ≠ [] := fun x hx => hne x (List.mem_cons_of_mem d hx)
    by_cases hwc : PyStr.countWords d ≤ ctx.max_words
    · obtain ⟨hp1, hp2⟩ := phase1_cons_pos ctx d ds i cp np cs hcs hwc
      rcases ih (i + 1) (cs + (d.length : Int)) (np + 1) hce0 hnetail with
        ⟨ih1, ih2, ih3, ih4, ih5⟩
      rw [hp1, hp2]
      refine ⟨?_, ?_, ?_, ih4, ?_⟩
      · intro x hx
        rcases List.mem_cons.mp hx with rfl | hx
        · exact ⟨le_refl i,
            by simp only [mkChunk_orig, List.length_cons]; omega,
            hcpcs, rfl, hd, rfl, rfl⟩
        · rcases ih1 x hx with ⟨h1, h2, h3, h4, h5, h6, h7⟩
          simp only [List.length_cons]
          exact ⟨by omega, by omega, by omega, h4, h5, h6, h7⟩
      · intro e he
        rcases ih2 e he with ⟨h1, h2, h3, h4⟩
        simp only [List.length_cons]
        exact ⟨by omega, by omega, by omega, h4⟩
      · refine List.pairwise_cons.mpr ⟨?_, ih3⟩
        intro y hy
        rcases ih1 y hy with ⟨h1, _, h3, _⟩
        simp only [mkChunk_orig, mkChunk_ce]
        exact ⟨by omega, h3⟩
      · intro x hx e he
        rcases List.mem_cons.mp hx with rfl | hx
        · rcases ih2 e he with ⟨h1, _, h3, _⟩
          left
          simp only [mkChunk_orig, mkChunk_ce]
          exact ⟨by omega, h3⟩
        · exact ih5 x hx e he
    · obtain ⟨hp1, hp2⟩ := phase1_cons_neg ctx d ds i cp np cs hcs hwc
      rcases ih (i + 1) (cs + (d.length : Int)) np hce0 hnetail with
        ⟨ih1, ih2, ih3, ih4, ih5⟩
      rw [hp1, hp2]
      refine ⟨?_, ?_, ih3, ?_, ?_⟩
      · intro x hx
        rcases ih1 x hx with ⟨h1, h2, h3, h4, h5, h6, h7⟩
        simp only [List.length_cons]
        exact ⟨by omega, by omega, by omega, h4, h5, h6, h7⟩
      · intro e he
        rcases List.mem_cons.mp he with rfl | he
        · refine ⟨le_refl i, ?_, hcpcs, hd⟩
          show i < i + (d :: ds).length
          simp only [List.length_cons]
          omega
        · rcases ih2 e he with ⟨h1, h2, h3, h4⟩
          simp only [List.length_cons]
          exact ⟨by omega, by omega, by omega, h4⟩
      · refine List.pairwise_cons.mpr ⟨?_, ih4⟩
        intro f hf
        rcases ih2 f hf with ⟨h1, _, h3, _⟩
        refine ⟨?_, ?_⟩
        · show i < f.1
          omega
        · show cs + (d.length : Int) ≤ f.2.2
          omega
      · intro x hx e he
        rcases ih1 x hx with ⟨hx1, _, hx3, _⟩
        rcases List.mem_cons.mp he with rfl | he
        · right
          refine ⟨?_, ?_⟩
          · show i < x.original_chunk_id
            omega
          · show cs + (d.length : Int) ≤ x.char_start_pos
            omega
        · exact ih5 x hx e he

end Chunking

namespace Chunking

/-- Strict order on the (document index, sibling index) slot of a chunk:
earlier original chunk, or same original chunk and earlier sibling. -/
def slotLt (a b : Chunk) : Prop :=
  a.original_chunk_id < b.original_chunk_id ∨
    (a.original_chunk_id = b.original_chunk_id ∧
      a.sentence_sibling_index < b.sentence_sibling_index)

/-- Symmetric pair ordering: one of the two chunks is strictly earlier both
by slot and by start position. -/
def ordCons (a b : Chunk) : Prop :=
  (slotLt a b ∧ a.char_start_pos < b.char_start_pos) ∨
    (slotLt b a ∧ b.char_start_pos < a.char_start_pos)

theorem ordCons_symm : Symmetric ordCons := by
  intro a b h
  rcases h with h | h
  · exact Or.inr h
  · exact Or.inl h

/-- The fields of a chunk that the claim's invariant talks about, unchanged
by renumbering and by the header pass. -/
def sig (c : Chunk) : Nat × Nat × Nat × Int :=
  (c.original_chunk_id, c.sentence_sibling_index, c.sentence_sibling_count, c.char_start_pos)

theorem pairwise_with_mem {α : Type} {R : α → α → Prop} {Q : α → Prop} :
    ∀ {l : List α}, l.Pairwise R → (∀ x ∈ l, Q x) →
      l.Pairwise (fun a b => R a b ∧ Q a ∧ Q b) := by
  intro l
  induction l with
  | nil => intro _ _; exact List.Pairwise.nil
  | cons a as ih =>
    intro hp hq
    rcases List.pairwise_cons.mp hp with ⟨ha, has⟩
    refine List.pairwise_cons.mpr
      ⟨?_, ih has (fun x hx => hq x (List.mem_cons_of_mem a hx))⟩
    intro b hb
    exact ⟨ha b hb, hq a (List.mem_cons_self a as), hq b (List.mem_cons_of_mem a hb)⟩

/-- Filtering a list whose values of `g` are pairwise distinct keeps at most
one element. -/
theorem filter_singleton_of_pairwise_ne {α : Type} (g : α → Nat) (o : Nat) :
    ∀ (l : List α), l.Pairwise (fun a b => g a ≠ g b) →
      l.filter (fun a => g a = o) = [] ∨
        ∃ x, l.filter (fun a => g a = o) = [x] := by
  intro l
  induction l with
  | nil => intro _; left; rfl
  | cons a as ih =>
    intro hp
    rcases List.pairwise_cons.mp hp with ⟨ha, has⟩
    by_cases hg : g a = o
    · right
      refine ⟨a, ?_⟩
      rw [List.filter_cons_of_pos (by simpa using hg)]
      have hnil : as.filter (fun x => g x = o) = [] := by
        refine List.filter_eq_nil_iff.mpr ?_
        intro b hb
        simp only [decide_eq_true_eq]
        intro hbo
        exact ha b hb (hg.trans hbo.symm)
      rw [hnil]
    · rw [List.filter_cons_of_neg (by simpa using hg)]
      exact ih has

theorem phase2_cons (ctx : Ctx) (e : Nat × List Char × Int)
    (rest : List (Nat × List Char × Int)) (np : Nat) :
    phase2 ctx (e :: rest) np =
      (buildGroup ctx e.1 e.2.1 e.2.2 (ctx.recSplit e.2.1).length
        (ctx.recSplit e.2.1) 0 0 np).1 ++
      phase2 ctx rest
        (buildGroup ctx e.1 e.2.1 e.2.2 (ctx.recSplit e.2.1).length
          (ctx.recSplit e.2.1) 0 0 np).2 := rfl

/-- Every chunk of a group has the group's `original_chunk_id`. -/
theorem buildGroup_orig (ctx : Ctx) (orig : Nat) (t : List Char) (ps : Int)
    (total : Nat) (subs : List (List Char)) (lp : Int) (sib np : Nat) :
    ∀ x ∈ (buildGroup ctx orig t ps total subs lp sib np).1,
      x.original_chunk_id = orig := by
  intro x hx
  have hm : x.original_chunk_id ∈
      (buildGroup ctx orig t ps total subs lp sib np).1.map
        (fun c => c.original_chunk_id) := List.mem_map_of_mem _ hx
  rw [(buildGroup_maps ctx orig t ps total subs lp sib np).2.1] at hm
  exact List.eq_of_mem_replicate hm

/-- Every chunk of a group carries the group size as its sibling count. -/
theorem buildGroup_cnt (ctx : Ctx) (orig : Nat) (t : List Char) (ps : Int)
    (total : Nat) (subs : List (List Char)) (lp : Int) (sib np : Nat) :
    ∀ x ∈ (buildGroup ctx orig t ps total subs lp sib np).1,
      x.sentence_sibling_count = total := by
  intro x hx
  have hm : x.sentence_sibling_count ∈
      (buildGroup ctx orig t ps total subs lp sib np).1.map
        (fun c => c.sentence_sibling_count) := List.mem_map_of_mem _ hx
  rw [(buildGroup_maps ctx orig t ps total subs lp sib np).2.2] at hm
  exact List.eq_of_mem_replicate hm

/-- Windows and ordering of the second pass: every chunk sits inside the
window of its queue entry, and the output is strictly ordered by slot and by
start position, when the entries' windows are ordered and each group's scan
succeeds on non-empty pieces. -/
theorem phase2_facts (ctx : Ctx) : ∀ (ng : List (Nat × List Char × Int)) (np : Nat),
    (∀ e ∈ ng, 0 ≤ e.2.2 ∧ e.2.1 ≠ [] ∧
      groupScanOk e.2.1 (ctx.recSplit e.2.1) 0 = true ∧
      (∀ s ∈ ctx.recSplit e.2.1, s ≠ [])) →
    ng.Pairwise (fun e f => e.1 < f.1 ∧ e.2.2 + (e.2.1.length : Int) ≤ f.2.2) →
    (∀ x ∈ phase2 ctx ng np, ∃ e ∈ ng, x.original_chunk_id = e.1 ∧
        e.2.2 ≤ x.char_start_pos ∧
        x.char_start_pos + 1 ≤ e.2.2 + (e.2.1.length : Int)) ∧
    (phase2 ctx ng np).Pairwise
      (fun a b => slotLt a b ∧ a.char_start_pos < b.char_start_pos) := by
  intro ng
  induction ng with
  | nil =>
    intro np _ _
    exact ⟨fun x hx => absurd hx (List.not_mem_nil x), List.Pairwise.nil⟩
  | cons e rest ih =>
    intro np hents hpw
    rcases hents e (List.mem_cons_self e rest) with ⟨hps0, hte, hscan, hpieces⟩
    rcases List.pairwise_cons.mp hpw with ⟨hef, hrest⟩
    have hentsT : ∀ f ∈ rest, 0 ≤ f.2.2 ∧ f.2.1 ≠ [] ∧
        groupScanOk f.2.1 (ctx.recSplit f.2.1) 0 = true ∧
        (∀ s ∈ ctx.recSplit f.2.1, s ≠ []) :=
      fun f hf => hents f (List.mem_cons_of_mem e hf)
    have hbw := buildGroup_windows ctx e.1 e.2.1 e.2.2 (ctx.recSplit e.2.1).length
      (ctx.recSplit e.2.1) 0 0 np (le_refl 0) hscan hpieces
    have hrec := ih ((buildGroup ctx e.1 e.2.1 e.2.2 (ctx.recSplit e.2.1).length
      (ctx.recSplit e.2.1) 0 0 np).2) hentsT hrest
    rw [phase2_cons]
    constructor
    · intro x hx
      rcases List.mem_append.mp hx with hx | hx
      · refine ⟨e, List.mem_cons_self e rest, buildGroup_orig _ _ _ _ _ _ _ _ _ x hx, ?_⟩
        rcases hbw.1 x hx with ⟨h1, h2⟩
        exact ⟨by omega, h2⟩
      · rcases hrec.1 x hx with ⟨f, hf, hor, hlo, hhi⟩
        exact ⟨f, List.mem_cons_of_mem e hf, hor, hlo, hhi⟩
    · refine List.pairwise_append.mpr ⟨?_, hrec.2, ?_⟩
      · have horig := buildGroup_orig ctx e.1 e.2.1 e.2.2 (ctx.recSplit e.2.1).length
          (ctx.recSplit e.2.1) 0 0 np
        have hcomb := pairwise_with_mem hbw.2 horig
        refine hcomb.imp ?_
        intro a b hab
        rcases hab with ⟨⟨hsib, hcs⟩, hqa, hqb⟩
        exact ⟨Or.inr ⟨hqa.trans hqb.symm, hsib⟩, hcs⟩
      · intro a ha b hb
        rcases hrec.1 b hb with ⟨f, hf, hor, hlo, _⟩
        rcases hef f hf with ⟨hlt, hwin⟩
        have hoa := buildGroup_orig ctx e.1 e.2.1 e.2.2 (ctx.recSplit e.2.1).length
          (ctx.recSplit e.2.1) 0 0 np a ha
        rcases hbw.1 a ha with ⟨_, hahi⟩
        constructor
        · left
          omega
        · omega

/-- For any `original_chunk_id`, the chunks of the second pass carrying it
are exactly one group (or none): their sibling indices enumerate their count
from 0 in order, and each carries that count. -/
theorem phase2_filter (ctx : Ctx) : ∀ (ng : List (Nat × List Char × Int)) (np : Nat) (o : Nat),
    ng.Pairwise (fun e f => e.1 ≠ f.1) →
    (((phase2 ctx ng np).filter (fun c => c.original_chunk_id = o)).map
        (fun c => c.sentence_sibling_index) =
      List.range ((phase2 ctx ng np).filter
        (fun c => c.original_chunk_id = o)).length) ∧
    (∀ c ∈ (phase2 ctx ng np).filter (fun c => c.original_chunk_id = o),
      c.sentence_sibling_count =
        ((phase2 ctx ng np).filter (fun c => c.original_chunk_id = o)).length) := by
  intro ng
  induction ng with
  | nil =>
    intro np o _
    exact ⟨rfl, fun c hc => absurd hc (List.not_mem_nil c)⟩
  | cons e rest ih =>
    intro np o hpw
    rcases List.pairwise_cons.mp hpw with ⟨hef, hrest⟩
    rw [phase2_cons, List.filter_append]
    have horig := buildGroup_orig ctx e.1 e.2.1 e.2.2 (ctx.recSplit e.2.1).length
      (ctx.recSplit e.2.1) 0 0 np
    by_cases ho : e.1 = o
    · have hself : (buildGroup ctx e.1 e.2.1 e.2.2 (ctx.recSplit e.2.1).length
          (ctx.recSplit e.2.1) 0 0 np).1.filter (fun c => c.original_chunk_id = o) =
          (buildGroup ctx e.1 e.2.1 e.2.2 (ctx.recSplit e.2.1).length
            (ctx.recSplit e.2.1) 0 0 np).1 := by
        refine List.filter_eq_self.mpr ?_
        intro x hx
        simp only [decide_eq_true_eq]
        rw [horig x hx, ho]
      have hnil : (phase2 ctx rest (buildGroup ctx e.1 e.2.1 e.2.2
          (ctx.recSplit e.2.1).length (ctx.recSplit e.2.1) 0 0 np).2).filter
          (fun c => c.original_chunk_id = o) = [] := by
        refine List.filter_eq_nil_iff.mpr ?_
        intro b hb
        simp only [decide_eq_true_eq]
        rcases mem_phase2_cases ctx rest _ b hb with ⟨f, hf, s, idx, cs, ce, sibIdx, _, rfl⟩
        rw [mkChunk_orig]
        intro hfo
        exact hef f hf (ho.symm ▸ hfo ▸ rfl)
      rw [hself, hnil, List.append_nil]
      have hmaps := buildGroup_maps ctx e.1 e.2.1 e.2.2 (ctx.recSplit e.2.1).length
        (ctx.recSplit e.2.1) 0 0 np
      have hlen : (buildGroup ctx e.1 e.2.1 e.2.2 (ctx.recSplit e.2.1).length
          (ctx.recSplit e.2.1) 0 0 np).1.length = (ctx.recSplit e.2.1).length := by
        have := congrArg List.length hmaps.1
        simpa using this
      constructor
      · rw [hmaps.1, hlen, List.range_eq_range']
      · intro c hc
        rw [hlen]
        exact buildGroup_cnt ctx e.1 e.2.1 e.2.2 (ctx.recSplit e.2.1).length
          (ctx.recSplit e.2.1) 0 0 np c hc
    · have hnil : (buildGroup ctx e.1 e.2.1 e.2.2 (ctx.recSplit e.2.1).length
          (ctx.recSplit e.2.1) 0 0 np).1.filter (fun c => c.original_chunk_id = o) = [] := by
        refine List.filter_eq_nil_iff.mpr ?_
        intro x hx
        simp only [decide_eq_true_eq]
        rw [horig x hx]
        exact ho
      rw [hnil, List.nil_append]
      exact ih _ o hrest

end Chunking

namespace Chunking

theorem preSort_eq (ctx : Ctx) (docs : List (List Char)) :
    preSort ctx docs = (phase1 ctx docs 0 0 0).1 ++
      phase2 ctx (phase1 ctx docs 0 0 0).2.1 (phase1 ctx docs 0 0 0).2.2 := rfl

/-- Any two distinct chunks of the pre-sort list are strictly ordered, the
same way, by slot and by start position — when every markdown piece is
non-empty and every recursive group's scan succeeds on non-empty pieces. -/
theorem preSort_ordCons (ctx : Ctx) (docs : List (List Char))
    (hdocs : ∀ d ∈ docs, d ≠ [])
    (hscan : ∀ e ∈ (phase1 ctx docs 0 0 0).2.1,
        groupScanOk e.2.1 (ctx.recSplit e.2.1) 0 = true)
    (hpieces : ∀ e ∈ (phase1 ctx docs 0 0 0).2.1,
        ∀ s ∈ ctx.recSplit e.2.1, s ≠ []) :
    (preSort ctx docs).Pairwise ordCons := by
  rcases phase1_facts ctx docs 0 0 0 (le_refl 0) hdocs with ⟨P1c, P1e, P1pc, P1pe, P1x⟩
  have hents : ∀ e ∈ (phase1 ctx docs 0 0 0).2.1, 0 ≤ e.2.2 ∧ e.2.1 ≠ [] ∧
      groupScanOk e.2.1 (ctx.recSplit e.2.1) 0 = true ∧
      (∀ s ∈ ctx.recSplit e.2.1, s ≠ []) :=
    fun e he => ⟨(P1e e he).2.2.1, (P1e e he).2.2.2, hscan e he, hpieces e he⟩
  rcases phase2_facts ctx (phase1 ctx docs 0 0 0).2.1 (phase1 ctx docs 0 0 0).2.2
    hents P1pe with ⟨P2m, P2p⟩
  rw [preSort_eq]
  refine List.pairwise_append.mpr ⟨?_, ?_, ?_⟩
  · have hcomb := pairwise_with_mem P1pc (fun x hx => P1c x hx)
    refine hcomb.imp ?_
    rintro a b ⟨⟨ho, hce⟩, ha, _⟩
    rcases ha with ⟨_, _, _, hae, hane, _⟩
    have h1 : 1 ≤ a.text.length := List.length_pos.mpr hane
    exact Or.inl ⟨Or.inl ho, by omega⟩
  · refine P2p.imp ?_
    rintro a b ⟨hs, hc⟩
    exact Or.inl ⟨hs, hc⟩
  · intro a ha b hb
    rcases P2m b hb with ⟨e, he, hbo, hblo, hbhi⟩
    rcases P1c a ha with ⟨_, _, _, hae, hane, _⟩
    have h1 : 1 ≤ a.text.length := List.length_pos.mpr hane
    rcases P1x a ha e he with ⟨hlt, hle⟩ | ⟨hlt, hge⟩
    · exact Or.inl ⟨Or.inl (by omega), by omega⟩
    · exact Or.inr ⟨Or.inl (by omega), by omega⟩

/-- For any `original_chunk_id`, the pre-sort chunks carrying it have
sibling indices `0..k-1` in list order (`k` their number) and sibling count
`k`. -/
theorem preSort_filter (ctx : Ctx) (docs : List (List Char))
    (hdocs : ∀ d ∈ docs, d ≠ []) (o : Nat) :
    (((preSort ctx docs).filter (fun c => c.original_chunk_id = o)).map
        (fun c => c.sentence_sibling_index) =
      List.range ((preSort ctx docs).filter
        (fun c => c.original_chunk_id = o)).length) ∧
    (∀ c ∈ (preSort ctx docs).filter (fun c => c.original_chunk_id = o),
      c.sentence_sibling_count =
        ((preSort ctx docs).filter (fun c => c.original_chunk_id = o)).length) := by
  rcases phase1_facts ctx docs 0 0 0 (le_refl 0) hdocs with ⟨P1c, P1e, P1pc, P1pe, P1x⟩
  have hne1 : (phase1 ctx docs 0 0 0).1.Pairwise
      (fun a b => a.original_chunk_id ≠ b.original_chunk_id) :=
    P1pc.imp (fun h => Nat.ne_of_lt h.1)
  have hneq : (phase1 ctx docs 0 0 0).2.1.Pairwise (fun e f => e.1 ≠ f.1) :=
    P1pe.imp (fun h => Nat.ne_of_lt h.1)
  have hsing : (phase1 ctx docs 0 0 0).1.filter (fun c => c.original_chunk_id = o) = [] ∨
      ∃ x, (phase1 ctx docs 0 0 0).1.filter (fun c => c.original_chunk_id = o) = [x] :=
    filter_singleton_of_pairwise_ne (fun c : Chunk => c.original_chunk_id) o _ hne1
  rw [preSort_eq, List.filter_append]
  rcases hsing with hP1 | ⟨x, hP1⟩
  · rw [hP1, List.nil_append]
    exact phase2_filter ctx _ _ o hneq
  · have hx : x ∈ (phase1 ctx docs 0 0 0).1.filter
        (fun c => c.original_chunk_id = o) := by
      rw [hP1]
      exact List.mem_singleton_self x
    rcases List.mem_filter.mp hx with ⟨hxm, hxo⟩
    have hxo' : x.original_chunk_id = o := of_decide_eq_true hxo
    have hP2 : (phase2 ctx (phase1 ctx docs 0 0 0).2.1
        (phase1 ctx docs 0 0 0).2.2).filter (fun c => c.original_chunk_id = o) = [] := by
      refine List.filter_eq_nil_iff.mpr ?_
      intro b hb
      simp only [decide_eq_true_eq]
      rcases mem_phase2_cases ctx _ _ b hb with ⟨e, he, s, idx, cs, ce, sibIdx, _, rfl⟩
      rw [mkChunk_orig]
      intro heo
      rcases P1x x hxm e he with ⟨hlt, _⟩ | ⟨hlt, _⟩ <;> omega
    rw [hP1, hP2, List.append_nil]
    rcases P1c x hxm with ⟨_, _, _, _, _, hsib, hcnt⟩
    constructor
    · show [x.sentence_sibling_index] = List.range 1
      rw [hsib]
      rfl
    · intro c hc
      rw [List.mem_singleton.mp hc]
      show x.sentence_sibling_count = 1
      exact hcnt

end Chunking

namespace Chunking

theorem applyHeaderInfo_sig (c : Chunk) (info : HInfo) :
    sig (applyHeaderInfo c info) = sig c := by
  rw [applyHeaderInfo]
  split <;> rfl

theorem applyHeaderInfo_idx (c : Chunk) (info : HInfo) :
    (applyHeaderInfo c info).chunk_index = c.chunk_index := by
  rw [applyHeaderInfo]
  split <;> rfl

/-- The header pass maps any header-invariant projection through unchanged. -/
theorem headerPass_map {β : Type} (g : Chunk → β)
    (hg : ∀ c info, g (applyHeaderInfo c info) = g c) :
    ∀ (l : List Chunk) (cur : List (Option (Nat × List Char))),
      (List.zipWith applyHeaderInfo l (headerScan cur l)).map g = l.map g := by
  intro l
  induction l with
  | nil => intro cur; rfl
  | cons c cs ih =>
    intro cur
    simp only [headerScan, List.zipWith_cons_cons, List.map_cons]
    rw [hg, ih]

theorem headerUpdate_map {β : Type} (g : Chunk → β)
    (hg : ∀ c info, g (applyHeaderInfo c info) = g c) (l : List Chunk) :
    (headerUpdate l).map g = l.map g :=
  headerPass_map g hg l (List.replicate 6 none)

theorem reindex_map_sig (ctx : Ctx) : ∀ (l : List Chunk) (i : Nat),
    (reindex ctx l i).map sig = l.map sig := by
  intro l
  induction l with
  | nil => intro i; rfl
  | cons c cs ih =>
    intro i
    simp only [reindex, List.map_cons]
    rw [ih]
    rfl

theorem reindex_map_idx (ctx : Ctx) : ∀ (l : List Chunk) (i : Nat),
    (reindex ctx l i).map (fun c => c.chunk_index) = List.range' i l.length := by
  intro l
  induction l with
  | nil => intro i; rfl
  | cons c cs ih =>
    intro i
    simp only [reindex, List.map_cons, List.length_cons, List.range'_succ]
    rw [ih]

/-- Pairwise relations that factor through a projection transfer between
lists with equal projections. -/
theorem pairwise_of_map_eq {α β : Type} {f : α → β} {R : β → β → Prop}
    {l₁ l₂ : List α} (h : l₁.map f = l₂.map f)
    (hp : l₂.Pairwise (fun a b => R (f a) (f b))) :
    l₁.Pairwise (fun a b => R (f a) (f b)) := by
  rw [← List.pairwise_map] at hp ⊢
  rw [h]
  exact hp

/-- Filter-and-project expressions that factor through a projection agree
between lists with equal projections. -/
theorem filter_map_of_map_eq {α β γ : Type} (f : α → β) (p : β → Bool) (g : β → γ)
    {l₁ l₂ : List α} (h : l₁.map f = l₂.map f) :
    (l₁.filter (fun a => p (f a))).map (fun a => g (f a)) =
      (l₂.filter (fun a => p (f a))).map (fun a => g (f a)) := by
  have e : ∀ (l : List α), (l.filter (fun a => p (f a))).map (fun a => g (f a)) =
      ((l.map f).filter p).map g := by
    intro l
    induction l with
    | nil => rfl
    | cons a as ih =>
      by_cases hpa : p (f a)
      · simp [List.filter_cons, hpa, ih]
      · simp [List.filter_cons, hpa, ih]
  rw [e, e, h]

end Chunking

namespace Chunking

/-- The sorted chunk list before renumbering. -/
def sortedPre (ctx : Ctx) (docs : List (List Char)) : List Chunk :=
  PyStr.stableSortByKey (fun c => c.char_start_pos) (preSort ctx docs)

theorem process_eq (ctx : Ctx) (docs : List (List Char)) :
    process_chunks_langchain ctx docs =
      headerUpdate (reindex ctx (sortedPre ctx docs) 0) := rfl

end Chunking

/-- C2: in the chunk list `process_chunks_langchain` returns (the list
`chunk_pdf` hands back), `chunk_index` is dense `0..n-1` in list order, the
list is strictly ordered by `char_start_pos` (so `chunk_index` order is
`char_start_pos` order), the positions holding any one `original_chunk_id`
form a contiguous range, and on the chunks sharing an `original_chunk_id`
the `sentence_sibling_index` values are exactly `0..k-1` in that order with
`sentence_sibling_count = k`.  Hypotheses are the text-splitter contract:
the markdown splitter's pieces are non-empty, and each oversized piece's
recursive sub-pieces are non-empty and found in order inside it by the
positional scan (which holds when the splitters return substrings in
document order, as `langchain`'s do). -/
theorem c2_sibling_contiguity (ctx : Chunking.Ctx) (docs : List (List Char))
    (hdocs : ∀ d ∈ docs, d ≠ [])
    (hscan : ∀ e ∈ (Chunking.phase1 ctx docs 0 0 0).2.1,
        Chunking.groupScanOk e.2.1 (ctx.recSplit e.2.1) 0 = true)
    (hpieces : ∀ e ∈ (Chunking.phase1 ctx docs 0 0 0).2.1,
        ∀ s ∈ ctx.recSplit e.2.1, s ≠ []) :
    ((Chunking.process_chunks_langchain ctx docs).map (fun c => c.chunk_index) =
      List.range (Chunking.process_chunks_langchain ctx docs).length) ∧
    ((Chunking.process_chunks_langchain ctx docs).Pairwise
      (fun a b => a.char_start_pos < b.char_start_pos)) ∧
    (∀ (o p q r : Nat) (hp : p < (Chunking.process_chunks_langchain ctx docs).length)
        (hq : q < (Chunking.process_chunks_langchain ctx docs).length)
        (hr : r < (Chunking.process_chunks_langchain ctx docs).length),
      p ≤ q → q ≤ r →
      ((Chunking.process_chunks_langchain ctx docs).get ⟨p, hp⟩).original_chunk_id = o →
      ((Chunking.process_chunks_langchain ctx docs).get ⟨r, hr⟩).original_chunk_id = o →
      ((Chunking.process_chunks_langchain ctx docs).get ⟨q, hq⟩).original_chunk_id = o) ∧
    (∀ o : Nat,
      (((Chunking.process_chunks_langchain ctx docs).filter
          (fun c => c.original_chunk_id = o)).map
          (fun c => c.sentence_sibling_index) =
        List.range ((Chunking.process_chunks_langchain ctx docs).filter
          (fun c => c.original_chunk_id = o)).length) ∧
      (∀ c ∈ (Chunking.process_chunks_langchain ctx docs).filter
          (fun c => c.original_chunk_id = o),
        c.sentence_sibling_count =
          ((Chunking.process_chunks_langchain ctx docs).filter
            (fun c => c.original_chunk_id = o)).length)) := by
  have h1 : (Chunking.process_chunks_langchain ctx docs).map Chunking.sig =
      (Chunking.sortedPre ctx docs).map Chunking.sig := by
    rw [Chunking.process_eq, Chunking.headerUpdate_map _ Chunking.applyHeaderInfo_sig,
      Chunking.reindex_map_sig]
  have hlen : (Chunking.process_chunks_langchain ctx docs).length =
      (Chunking.sortedPre ctx docs).length := by
    have h2 := congrArg List.length h1
    simpa using h2
  have hidx : (Chunking.process_chunks_langchain ctx docs).map (fun c => c.chunk_index) =
      List.range' 0 (Chunking.sortedPre ctx docs).length := by
    rw [Chunking.process_eq, Chunking.headerUpdate_map _ Chunking.applyHeaderInfo_idx,
      Chunking.reindex_map_idx]
  have hperm : List.Perm (Chunking.sortedPre ctx docs) (Chunking.preSort ctx docs) :=
    PyStr.stableSortByKey_perm _ _
  have hord : (Chunking.sortedPre ctx docs).Pairwise Chunking.ordCons :=
    (hperm.pairwise_iff (fun hab => Chunking.ordCons_symm hab)).mpr
      (Chunking.preSort_ordCons ctx docs hdocs hscan hpieces)
  have hle : (Chunking.sortedPre ctx docs).Pairwise
      (fun a b => a.char_start_pos ≤ b.char_start_pos) :=
    PyStr.stableSortByKey_pairwise _ _
  have hstrict : (Chunking.sortedPre ctx docs).Pairwise
      (fun a b => Chunking.slotLt a b ∧ a.char_start_pos < b.char_start_pos) := by
    refine (hord.and hle).imp ?_
    intro a b hab
    rcases hab with ⟨hoc, hlecs⟩
    rcases hoc with ⟨hs, hlt⟩ | ⟨hs, hlt⟩
    · exact ⟨hs, hlt⟩
    · exact absurd hlecs (by omega)
  have houtS : (Chunking.process_chunks_langchain ctx docs).Pairwise
      (fun a b => Chunking.slotLt a b ∧ a.char_start_pos < b.char_start_pos) := by
    have h3 : (Chunking.process_chunks_langchain ctx docs).Pairwise
        (fun a b => ((Chunking.sig a).1 < (Chunking.sig b).1 ∨
          ((Chunking.sig a).1 = (Chunking.sig b).1 ∧
            (Chunking.sig a).2.1 < (Chunking.sig b).2.1)) ∧
          (Chunking.sig a).2.2.2 < (Chunking.sig b).2.2.2) :=
      @Chunking.pairwise_of_map_eq Chunking.Chunk (Nat × Nat × Nat × Int) Chunking.sig
        (fun p q => (p.1 < q.1 ∨ (p.1 = q.1 ∧ p.2.1 < q.2.1)) ∧ p.2.2.2 < q.2.2.2)
        (Chunking.process_chunks_langchain ctx docs) (Chunking.sortedPre ctx docs)
        h1 hstrict
    exact h3
  refine ⟨?_, ?_, ?_, ?_⟩
  · rw [hlen, List.range_eq_range']
    exact hidx
  · exact houtS.imp (fun h => h.2)
  · have hget := List.pairwise_iff_get.mp houtS
    intro o p q r hp hq hr hpq hqr hpo hro
    by_cases hpq' : p = q
    · subst hpq'
      exact hpo
    · by_cases hqr' : q = r
      · subst hqr'
        exact hro
      · have hlt1 : p < q := Nat.lt_of_le_of_ne hpq hpq'
        have hlt2 : q < r := Nat.lt_of_le_of_ne hqr hqr'
        have hab := hget ⟨p, hp⟩ ⟨q, hq⟩ hlt1
        have hbc := hget ⟨q, hq⟩ ⟨r, hr⟩ hlt2
        have hab1 : ((Chunking.process_chunks_langchain ctx docs).get
            ⟨p, hp⟩).original_chunk_id <
            ((Chunking.process_chunks_langchain ctx docs).get ⟨q, hq⟩).original_chunk_id ∨
            (((Chunking.process_chunks_langchain ctx docs).get
              ⟨p, hp⟩).original_chunk_id =
              ((Chunking.process_chunks_langchain ctx docs).get
                ⟨q, hq⟩).original_chunk_id ∧
              ((Chunking.process_chunks_langchain ctx docs).get
                ⟨p, hp⟩).sentence_sibling_index <
              ((Chunking.process_chunks_langchain ctx docs).get
                ⟨q, hq⟩).sentence_sibling_index) := hab.1
        have hbc1 : ((Chunking.process_chunks_langchain ctx docs).get
            ⟨q, hq⟩).original_chunk_id <
            ((Chunking.process_chunks_langchain ctx docs).get ⟨r, hr⟩).original_chunk_id ∨
            (((Chunking.process_chunks_langchain ctx docs).get
              ⟨q, hq⟩).original_chunk_id =
              ((Chunking.process_chunks_langchain ctx docs).get
                ⟨r, hr⟩).original_chunk_id ∧
              ((Chunking.process_chunks_langchain ctx docs).get
                ⟨q, hq⟩).sentence_sibling_index <
              ((Chunking.process_chunks_langchain ctx docs).get
                ⟨r, hr⟩).sentence_sibling_index) := hbc.1
        rcases hab1 with h | ⟨h, _⟩
        · rcases hbc1 with h2 | ⟨h2, _⟩
          · omega
          · omega
        · omega
  · intro o
    have hfsib : ((Chunking.process_chunks_langchain ctx docs).filter
        (fun c => c.original_chunk_id = o)).map (fun c => c.sentence_sibling_index) =
        ((Chunking.sortedPre ctx docs).filter
          (fun c => c.original_chunk_id = o)).map (fun c => c.sentence_sibling_index) :=
      Chunking.filter_map_of_map_eq Chunking.sig
        (fun s => decide (s.1 = o)) (fun s => s.2.1) h1
    have hfcnt : ((Chunking.process_chunks_langchain ctx docs).filter
        (fun c => c.original_chunk_id = o)).map (fun c => c.sentence_sibling_count) =
        ((Chunking.sortedPre ctx docs).filter
          (fun c => c.original_chunk_id = o)).map (fun c => c.sentence_sibling_count) :=
      Chunking.filter_map_of_map_eq Chunking.sig
        (fun s => decide (s.1 = o)) (fun s => s.2.2.1) h1
    have hflen : ((Chunking.process_chunks_langchain ctx docs).filter
        (fun c => c.original_chunk_id = o)).length =
        ((Chunking.sortedPre ctx docs).filter
          (fun c => c.original_chunk_id = o)).length := by
      have h4 := congrArg List.length hfsib
      simpa using h4
    have hSFperm : List.Perm ((Chunking.sortedPre ctx docs).filter
        (fun c => c.original_chunk_id = o))
        ((Chunking.preSort ctx docs).filter (fun c => c.original_chunk_id = o)) :=
      hperm.filter _
    rcases Chunking.preSort_filter ctx docs hdocs o with ⟨hF0sib, hF0cnt⟩
    have hSFlen : ((Chunking.sortedPre ctx docs).filter
        (fun c => c.original_chunk_id = o)).length =
        ((Chunking.preSort ctx docs).filter
          (fun c => c.original_chunk_id = o)).length := hSFperm.length_eq
    have hSFmem : ∀ x ∈ (Chunking.sortedPre ctx docs).filter
        (fun c => c.original_chunk_id = o), x.original_chunk_id = o := by
      intro x hx
      exact of_decide_eq_true (List.mem_filter.mp hx).2
    have hSFsib : ((Chunking.sortedPre ctx docs).filter
        (fun c => c.original_chunk_id = o)).Pairwise
        (fun a b => a.sentence_sibling_index < b.sentence_sibling_index) := by
      have h5 := Chunking.pairwise_with_mem (hstrict.filter _) hSFmem
      refine h5.imp ?_
      intro a b hab
      rcases hab with ⟨⟨hs, _⟩, hqa, hqb⟩
      rcases (show a.original_chunk_id < b.original_chunk_id ∨
          (a.original_chunk_id = b.original_chunk_id ∧
            a.sentence_sibling_index < b.sentence_sibling_index) from hs) with h | ⟨_, h⟩
      · omega
      · exact h
    have hmapSorted : (((Chunking.sortedPre ctx docs).filter
        (fun c => c.original_chunk_id = o)).map
        (fun c => c.sentence_sibling_index)).Pairwise (· < ·) :=
      List.pairwise_map.mpr hSFsib
    have hmp : List.Perm (((Chunking.sortedPre ctx docs).filter
        (fun c => c.original_chunk_id = o)).map (fun c => c.sentence_sibling_index))
        (List.range ((Chunking.preSort ctx docs).filter
          (fun c => c.original_chunk_id = o)).length) := by
      have h6 := hSFperm.map (fun c => c.sentence_sibling_index)
      rw [hF0sib] at h6
      exact h6
    haveI : IsAntisymm Nat (· < ·) :=
      ⟨fun a b h1 h2 => absurd h2 (Nat.lt_asymm h1)⟩
    have heq : ((Chunking.sortedPre ctx docs).filter
        (fun c => c.original_chunk_id = o)).map (fun c => c.sentence_sibling_index) =
        List.range ((Chunking.preSort ctx docs).filter
          (fun c => c.original_chunk_id = o)).length :=
      List.eq_of_perm_of_sorted hmp hmapSorted (List.pairwise_lt_range _)
    constructor
    · rw [hfsib, heq, hflen, hSFlen]
    · intro c hc
      have hmem : c.sentence_sibling_count ∈
          ((Chunking.process_chunks_langchain ctx docs).filter
            (fun c => c.original_chunk_id = o)).map
            (fun c => c.sentence_sibling_count) := List.mem_map_of_mem _ hc
      rw [hfcnt] at hmem
      rcases List.mem_map.mp hmem with ⟨x, hx, hxc⟩
      have hxF0 : x ∈ (Chunking.preSort ctx docs).filter
          (fun c => c.original_chunk_id = o) := hSFperm.mem_iff.mp hx
      have h7 := hF0cnt x hxF0
      rw [← hxc, h7, ← hSFlen, ← hflen]

/-- Recursive-splitter oracle for the C2 witness input: `"a a a."` splits
into `"a a"` and `"a."` (both within the character budget `max_words*6`). -/
def c2Split : List Char → List (List Char) :=
  fun t => if t = "a a a.".toList then ["a a".toList, "a.".toList] else []

/-- C2 witness context: a one-page, eight-character markdown whose first
piece is oversized (3 words > `max_words` = 2) and second is not. -/
def c2Ctx : Chunking.Ctx :=
  { md := "a a a. b".toList
    meta := { total_pages := 1, page_markers := [(0, 1)] }
    course_id := "C", slide_id := "S", s3_file_name := "a.pdf"
    max_words := 2, now := 0
    recSplit := c2Split }

/-- The markdown-splitter output for that markdown. -/
def c2Docs : List (List Char) := ["a a a.".toList, "b".toList]

/-- C2 (witness): the splitter-contract hypotheses hold at the concrete
input above — the pieces are non-empty and the recursive group's scan
succeeds — and the claimed invariants follow for its chunk list. -/
theorem c2_sibling_contiguity_witness :
    (∀ d ∈ c2Docs, d ≠ []) ∧
    (∀ e ∈ (Chunking.phase1 c2Ctx c2Docs 0 0 0).2.1,
        Chunking.groupScanOk e.2.1 (c2Ctx.recSplit e.2.1) 0 = true) ∧
    (∀ e ∈ (Chunking.phase1 c2Ctx c2Docs 0 0 0).2.1,
        ∀ s ∈ c2Ctx.recSplit e.2.1, s ≠ []) ∧
    (((Chunking.process_chunks_langchain c2Ctx c2Docs).map (fun c => c.chunk_index) =
        List.range (Chunking.process_chunks_langchain c2Ctx c2Docs).length) ∧
      ((Chunking.process_chunks_langchain c2Ctx c2Docs).Pairwise
        (fun a b => a.char_start_pos < b.char_start_pos)) ∧
      (∀ (o p q r : Nat) (hp : p < (Chunking.process_chunks_langchain c2Ctx c2Docs).length)
          (hq : q < (Chunking.process_chunks_langchain c2Ctx c2Docs).length)
          (hr : r < (Chunking.process_chunks_langchain c2Ctx c2Docs).length),
        p ≤ q → q ≤ r →
        ((Chunking.process_chunks_langchain c2Ctx c2Docs).get ⟨p, hp⟩).original_chunk_id = o →
        ((Chunking.process_chunks_langchain c2Ctx c2Docs).get ⟨r, hr⟩).original_chunk_id = o →
        ((Chunking.process_chunks_langchain c2Ctx c2Docs).get ⟨q, hq⟩).original_chunk_id = o) ∧
      (∀ o : Nat,
        (((Chunking.process_chunks_langchain c2Ctx c2Docs).filter
            (fun c => c.original_chunk_id = o)).map
            (fun c => c.sentence_sibling_index) =
          List.range ((Chunking.process_chunks_langchain c2Ctx c2Docs).filter
            (fun c => c.original_chunk_id = o)).length) ∧
        (∀ c ∈ (Chunking.process_chunks_langchain c2Ctx c2Docs).filter
            (fun c => c.original_chunk_id = o),
          c.sentence_sibling_count =
            ((Chunking.process_chunks_langchain c2Ctx c2Docs).filter
              (fun c => c.original_chunk_id = o)).length))) :=
  ⟨by decide, by decide, by decide,
    c2_sibling_contiguity c2Ctx c2Docs (by decide) (by decide) (by decide)⟩
